import Mathlib

/-! # BandPassFilter-VAD: three-band filter bank with per-band AGC

A shallow embedding of `band_pass_filter_vad.c`.

* The C `float` type is modelled by an arbitrary linearly ordered field `K`
  (exact arithmetic: no rounding, no infinities, no NaN).  The decimal
  constants of the source (`0.03f`, `0.2929f`, ...) are read as the exact
  decimal numbers.
* `fabsf` is the absolute value of `K`.  `powf` comes from the C maths
  library, not from this program, so the functions that call it take it as
  a parameter; the theorems that depend on what a power is instantiate it
  with `Real.rpow` over `ℝ`.
* The global arrays `bands[6]` and `band_ctrl[3]` are the two fields of an
  explicit `State` that every function receives and returns.
-/

namespace BandPassFilterVAD

/-! ## Data model -/

/-- The constant `#define NUM_BANDS 3`. -/
abbrev NUM_BANDS : Nat := 3

/-- The struct `biquad_t`: five coefficients and four delay registers. -/
structure biquad_t (K : Type) where
  b0 : K
  b1 : K
  b2 : K
  a1 : K
  a2 : K
  x1 : K
  x2 : K
  y1 : K
  y2 : K

/-- The struct `band_agc_t`: the per-band gain controller. -/
structure band_agc_t (K : Type) where
  alpha : K
  env : K
  threshold : K
  max_gain : K
  gain : K

/-- The globals `biquad_t bands[NUM_BANDS*2]` and
`band_agc_t band_ctrl[NUM_BANDS]`. -/
structure State (K : Type) where
  bands : Fin 6 → biquad_t K
  band_ctrl : Fin 3 → band_agc_t K

section Core

variable {K : Type} [LinearOrderedField K]

/-! ## `biquad_process` -/

/-- The function `biquad_process(q, x)`: the returned sample and the state left in `*q`.
The four assignments to the delay registers are made in source order. -/
def biquad_process (q : biquad_t K) (x : K) : K × biquad_t K :=
  let y := q.b0 * x + q.b1 * q.x1 + q.b2 * q.x2 - q.a1 * q.y1 - q.a2 * q.y2
  let q := { q with x2 := q.x1 }
  let q := { q with x1 := x }
  let q := { q with y2 := q.y1 }
  let q := { q with y1 := y }
  (y, q)

/-! ## `apply_band_agc` -/

/-- The function `apply_band_agc(b, sample)`: the returned sample and the state left in
`*b`.  `powf` is the C library function. -/
def apply_band_agc (powf : K → K → K) (b : band_agc_t K) (sample : K) :
    K × band_agc_t K :=
  let b := { b with env := b.alpha * b.env + (1.0 - b.alpha) * |sample| }
  let ratio := b.env / b.threshold
  let target_gain :=
    if ratio ≥ 1.0 then 1.0 + (b.max_gain - 1.0) * powf ratio 0.6
    else powf ratio 4.0
  let target_gain := if target_gain > b.max_gain then b.max_gain else target_gain
  let target_gain := if target_gain < 0.03 then 0.03 else target_gain
  let attack : K := 0.03
  let release : K := 0.001
  let c := if target_gain > b.gain then attack else release
  let b := { b with gain := b.gain + c * (target_gain - b.gain) }
  (sample * b.gain, b)

/-! ### The stages of `apply_band_agc`

The intermediate values of one `apply_band_agc` call, named so that they can
be reasoned about one at a time: the updated envelope, `ratio`, the
target gain before and after the two clamps, and the updated gain. -/

/-- The envelope after the first statement of `apply_band_agc`. -/
def agc_env (b : band_agc_t K) (sample : K) : K :=
  b.alpha * b.env + (1.0 - b.alpha) * |sample|

/-- The local `ratio` of `apply_band_agc`. -/
def agc_ratio (b : band_agc_t K) (sample : K) : K :=
  agc_env b sample / b.threshold

/-- The local `target_gain` of `apply_band_agc` before the two clamps. -/
def agc_target (powf : K → K → K) (b : band_agc_t K) (sample : K) : K :=
  if agc_ratio b sample ≥ 1.0 then 1.0 + (b.max_gain - 1.0) * powf (agc_ratio b sample) 0.6
  else powf (agc_ratio b sample) 4.0

/-- The local `target_gain` of `apply_band_agc` after the two clamps. -/
def agc_clamped (powf : K → K → K) (b : band_agc_t K) (sample : K) : K :=
  let target_gain := agc_target powf b sample
  let target_gain := if target_gain > b.max_gain then b.max_gain else target_gain
  if target_gain < 0.03 then 0.03 else target_gain

/-- The gain after the update `b->gain += c * (target_gain - b->gain)`. -/
def agc_gain (powf : K → K → K) (b : band_agc_t K) (sample : K) : K :=
  b.gain + (if agc_clamped powf b sample > b.gain then 0.03 else 0.001)
    * (agc_clamped powf b sample - b.gain)

/-! ## `init_bands` -/

/-- The compound literal `(biquad_t){b0, b1, b2, a1, a2, 0, 0, 0, 0}`. -/
def biquad_lit (b0 b1 b2 a1 a2 : K) : biquad_t K :=
  { b0 := b0, b1 := b1, b2 := b2, a1 := a1, a2 := a2, x1 := 0, x2 := 0, y1 := 0, y2 := 0 }

/-- Body of the `for` loop of `init_bands`: five field assignments to
`band_ctrl[i]`. -/
def init_ctrl (ctrl : Fin 3 → band_agc_t K) (i : Fin 3) : Fin 3 → band_agc_t K :=
  let ctrl := Function.update ctrl i { ctrl i with alpha := 0.995 }
  let ctrl := Function.update ctrl i { ctrl i with env := 0.0 }
  let ctrl := Function.update ctrl i { ctrl i with threshold := 0.1 }
  let ctrl := Function.update ctrl i { ctrl i with max_gain := 10.0 }
  let ctrl := Function.update ctrl i { ctrl i with gain := 1.0 }
  ctrl

/-- The function `init_bands()`: it overwrites the six filter stages and the three gain
controllers of the state it is called in. -/
def init_bands (st : State K) : State K :=
  let bands := st.bands
  let bands := Function.update bands 0 (biquad_lit 0.2929 0.5858 0.2929 (-0.0000) 0.1716)
  let bands := Function.update bands 1 (biquad_lit 0.2929 0.5858 0.2929 (-0.0000) 0.1716)
  let bands := Function.update bands 2 (biquad_lit 0.2066 0 (-0.2066) (-0.0000) 0.5868)
  let bands := Function.update bands 3 (biquad_lit 0.2066 0 (-0.2066) (-0.0000) 0.5868)
  let bands := Function.update bands 4 (biquad_lit 0.2066 0 (-0.2066) (-0.0000) 0.5868)
  let bands := Function.update bands 5 (biquad_lit 0.2066 0 (-0.2066) (-0.0000) 0.5868)
  { bands := bands, band_ctrl := (List.finRange NUM_BANDS).foldl init_ctrl st.band_ctrl }

/-- The zero-initialised globals a C program starts with. -/
def zero_state : State K :=
  { bands := fun _ => ⟨0, 0, 0, 0, 0, 0, 0, 0, 0⟩, band_ctrl := fun _ => ⟨0, 0, 0, 0, 0⟩ }

/-! ## `process_sample` -/

/-- Index `b*2` into `bands`. -/
def stage0 (b : Fin 3) : Fin 6 := ⟨b.val * 2, by omega⟩

/-- Index `b*2+1` into `bands`. -/
def stage1 (b : Fin 3) : Fin 6 := ⟨b.val * 2 + 1, by omega⟩

/-- Body of the first loop of `process_sample` for band `b`: two cascaded
biquad stages, then the gain controller; the result is stored in
`band_samples[b]`. -/
def filter_band (powf : K → K → K) (x : K) (acc : State K × (Fin 3 → K)) (b : Fin 3) :
    State K × (Fin 3 → K) :=
  let st := acc.1
  let y := x
  let r := biquad_process (st.bands (stage0 b)) y
  let st := { st with bands := Function.update st.bands (stage0 b) r.2 }
  let y := r.1
  let r := biquad_process (st.bands (stage1 b)) y
  let st := { st with bands := Function.update st.bands (stage1 b) r.2 }
  let y := r.1
  let r := apply_band_agc powf (st.band_ctrl b) y
  let st := { st with band_ctrl := Function.update st.band_ctrl b r.2 }
  (st, Function.update acc.2 b r.1)

/-- The function `process_sample(x)`: the returned sample and the state of the globals
after the call. -/
def process_sample (powf : K → K → K) (st : State K) (x : K) : K × State K :=
  let acc := (List.finRange NUM_BANDS).foldl (filter_band powf x) (st, fun _ => 0)
  let band_samples := acc.2
  let out : K := 0
  let out := (List.finRange NUM_BANDS).foldl (fun out b => out + band_samples b) out
  let out := out / (NUM_BANDS : K)
  let out := if out > 1.0 then 1.0 else out
  let out := if out < -1.0 then -1.0 else out
  (out, acc.1)

/-- The input of band `b`'s gain controller in `process_sample`: `x` run
through the band's two cascaded stages. -/
def band_input (st : State K) (x : K) (b : Fin 3) : K :=
  (biquad_process (st.bands (stage1 b)) (biquad_process (st.bands (stage0 b)) x).1).1

/-- One band on its own: the two stages `q0`, `q1` and the controller `c` of
a band applied to `x`, as a function of nothing but these four values.  It
returns the post-gain sample and the new `q0`, `q1` and `c`. -/
def band_chain (powf : K → K → K) (q0 q1 : biquad_t K) (c : band_agc_t K) (x : K) :
    K × biquad_t K × biquad_t K × band_agc_t K :=
  let r0 := biquad_process q0 x
  let r1 := biquad_process q1 r0.1
  let r2 := apply_band_agc powf c r1.1
  (r2.1, r0.2, r1.2, r2.2)

/-! ## Repeated calls -/

/-- Successive `process_sample` calls on a list of inputs, in input order:
the list of returned samples and the final state. -/
def process_stream (powf : K → K → K) : State K → List K → List K × State K
  | st, [] => ([], st)
  | st, x :: xs =>
    let r := process_sample powf st x
    let rest := process_stream powf r.2 xs
    (r.1 :: rest.1, rest.2)

/-- Successive `apply_band_agc` calls on one controller: the state after
the last call. -/
def agc_run (powf : K → K → K) : band_agc_t K → List K → band_agc_t K
  | b, [] => b
  | b, s :: ss => agc_run powf (apply_band_agc powf b s).2 ss

/-- Successive `biquad_process` calls on one stage: the list of returned
samples and the final state. -/
def biquad_run : biquad_t K → List K → List K × biquad_t K
  | q, [] => ([], q)
  | q, x :: xs =>
    let r := biquad_process q x
    let rest := biquad_run r.2 xs
    (r.1 :: rest.1, rest.2)

/-! ## `main` -/

/-- The conversion `(int16_t)v` of a float: truncation toward zero.  (The
conversion is only defined in C when the truncated value fits in 16 bits.) -/
def to_int16 [FloorRing K] (v : K) : Int :=
  if 0 ≤ v then ⌊v⌋ else ⌈v⌉

/-- The `while (fread ...)` loop of `main` over the 16-bit samples of the
input file: the list of integers written and the final state. -/
def main_loop [FloorRing K] (powf : K → K → K) : State K → List Int → List Int × State K
  | st, [] => ([], st)
  | st, sample_in :: more =>
    let x : K := (sample_in : K) / 32768.0
    let r := process_sample powf st x
    let out := to_int16 (r.1 * 32767.0)
    let rest := main_loop powf r.2 more
    (out :: rest.1, rest.2)

/-- What `main` sees of the file system: `input path` is the sequence of
16-bit samples `fread` delivers from `path`, or `none` when
`fopen(path, "rb")` fails; `output_ok path` tells whether
`fopen(path, "wb")` succeeds. -/
structure Files where
  input : String → Option (List Int)
  output_ok : String → Bool

/-- The observable effects of one run of `main`. -/
structure Outcome where
  exit_code : Int
  stdout : List String
  perror : List String
  fopen_calls : List (String × String)
  written : List Int
  deriving DecidableEq, Repr

/-- The function `main(argc, argv)`, with `argc = argv.length` and `argv[i]`
the `i`-th entry.  (`printf` of a missing `argv[0]` is shown as `(null)`.)
The sample loop is `main_loop`; `fclose` has no observable effect here. -/
def main [FloorRing K] (powf : K → K → K) (argv : List String) (fs : Files) : Outcome :=
  let argc := argv.length
  if argc < 3 then
    { exit_code := 1
      stdout := ["Usage: " ++ argv.getD 0 "(null)" ++ " input.raw output.raw\n"]
      perror := [], fopen_calls := [], written := [] }
  else
    let a1 := argv.getD 1 ""
    let a2 := argv.getD 2 ""
    match fs.input a1 with
    | none =>
      { exit_code := 1, stdout := [], perror := ["input"]
        fopen_calls := [(a1, "rb")], written := [] }
    | some samples =>
      if fs.output_ok a2 = false then
        { exit_code := 1, stdout := [], perror := ["output"]
          fopen_calls := [(a1, "rb"), (a2, "wb")], written := [] }
      else
        let st : State K := init_bands zero_state
        let r := main_loop powf st samples
        { exit_code := 0
          stdout := ["Processing done: " ++ a1 ++ " -> " ++ a2 ++ "\n"]
          perror := [], fopen_calls := [(a1, "rb"), (a2, "wb")], written := r.1 }

/-! ## Predicates used in the statements -/

/-- All four delay registers of a stage are zero. -/
def delays_zero (q : biquad_t K) : Prop :=
  q.x1 = 0 ∧ q.x2 = 0 ∧ q.y1 = 0 ∧ q.y2 = 0

/-- Two stages have the same five coefficients. -/
def same_coeffs (q r : biquad_t K) : Prop :=
  q.b0 = r.b0 ∧ q.b1 = r.b1 ∧ q.b2 = r.b2 ∧ q.a1 = r.a1 ∧ q.a2 = r.a2

/-- The stage with the coefficients of `q` whose delay registers are the
combination `a * (registers of q) + c * (registers of r)`. -/
def biquad_comb (a c : K) (q r : biquad_t K) : biquad_t K :=
  { q with
    x1 := a * q.x1 + c * r.x1
    x2 := a * q.x2 + c * r.x2
    y1 := a * q.y1 + c * r.y1
    y2 := a * q.y2 + c * r.y2 }

/-- The condition `P b s` holds at every call of a run of `apply_band_agc` over the
samples, `b` being the controller state before the call and `s` the sample
passed. -/
def agc_steps_satisfy (powf : K → K → K) (P : band_agc_t K → K → Prop) :
    band_agc_t K → List K → Prop
  | _, [] => True
  | b, s :: ss => P b s ∧ agc_steps_satisfy powf P (apply_band_agc powf b s).2 ss

/-- The stage `q` with its four delay registers negated. -/
def biquad_neg (q : biquad_t K) : biquad_t K :=
  { q with x1 := -q.x1, x2 := -q.x2, y1 := -q.y1, y2 := -q.y2 }

/-- The target gain of `apply_band_agc` before the clamps, as a function of
`max_gain` and of the local `ratio` (the `if`/`else` on `ratio`). -/
def target_of_ratio (powf : K → K → K) (max_gain ratio : K) : K :=
  if ratio ≥ 1.0 then 1.0 + (max_gain - 1.0) * powf ratio 0.6
  else powf ratio 4.0

/-- The two clamps of `apply_band_agc` applied to a target gain. -/
def clamp_target (max_gain target_gain : K) : K :=
  let target_gain := if target_gain > max_gain then max_gain else target_gain
  if target_gain < 0.03 then 0.03 else target_gain

end Core

/-! # Theorems -/

section Lemmas

variable {K : Type} [LinearOrderedField K]

/-! ## Unfolding the source functions -/

theorem apply_band_agc_eq (powf : K → K → K) (b : band_agc_t K) (s : K) :
    apply_band_agc powf b s
      = (s * agc_gain powf b s, { b with env := agc_env b s, gain := agc_gain powf b s }) :=
  rfl

/-- The two `if` clamps of `apply_band_agc` as a `max` of a `min`. -/
theorem agc_clamped_eq (powf : K → K → K) (b : band_agc_t K) (s : K) :
    agc_clamped powf b s = max 0.03 (min (agc_target powf b s) b.max_gain) := by
  simp only [agc_clamped]
  by_cases h1 : agc_target powf b s > b.max_gain
  · have h1' : b.max_gain ≤ agc_target powf b s := le_of_lt h1
    simp only [h1, if_true, min_eq_right h1']
    by_cases h2 : b.max_gain < 0.03
    · simp [h2, max_eq_left (le_of_lt h2)]
    · simp [h2, max_eq_right (not_lt.mp h2)]
  · have h1' : agc_target powf b s ≤ b.max_gain := not_lt.mp h1
    simp only [h1, if_false, min_eq_left h1']
    by_cases h2 : agc_target powf b s < 0.03
    · simp [h2, max_eq_left (le_of_lt h2)]
    · simp [h2, max_eq_right (not_lt.mp h2)]

/-- Over the reals `powf(r, 4.0f)` is the fourth power. -/
theorem rpow_four (r : ℝ) : Real.rpow r 4.0 = r ^ 4 := by
  have h : (4.0 : ℝ) = ((4 : ℕ) : ℝ) := by norm_num
  rw [h]
  exact Real.rpow_natCast r 4

theorem finRange_three : List.finRange NUM_BANDS = [0, 1, 2] := by decide

/-- The first loop of `process_sample`, unrolled: what it leaves in
`band_samples` and in the globals. -/
theorem filter_band_fold (powf : K → K → K) (st : State K) (x : K) :
    let acc := (List.finRange NUM_BANDS).foldl (filter_band powf x) (st, fun _ => 0)
    (∀ b, acc.2 b = (apply_band_agc powf (st.band_ctrl b) (band_input st x b)).1) ∧
    (∀ b, acc.1.bands (stage0 b) = (biquad_process (st.bands (stage0 b)) x).2) ∧
    (∀ b, acc.1.bands (stage1 b)
        = (biquad_process (st.bands (stage1 b)) (biquad_process (st.bands (stage0 b)) x).1).2) ∧
    (∀ b, acc.1.band_ctrl b = (apply_band_agc powf (st.band_ctrl b) (band_input st x b)).2) := by
  intro acc
  simp only [acc, finRange_three, List.foldl_cons, List.foldl_nil]
  refine ⟨?_, ?_, ?_, ?_⟩ <;> intro b <;> fin_cases b <;>
    simp [filter_band, band_input, stage0, stage1, Function.update]

/-- The final clip of `process_sample` as a `max` of a `min`. -/
theorem clip_eq (v : K) :
    (if (if v > 1.0 then 1.0 else v) < -1.0 then -1.0 else (if v > 1.0 then (1.0 : K) else v))
      = max (-1) (min v 1) := by
  by_cases h1 : v > 1
  · have : ¬ ((1 : K) < -1) := by norm_num
    norm_num [h1, min_eq_right (le_of_lt h1)]
  · have h1' : v ≤ 1 := not_lt.mp h1
    by_cases h2 : v < -1
    · norm_num [h1, h2, min_eq_left h1', max_eq_left (le_of_lt h2)]
    · norm_num [h1, h2, min_eq_left h1', max_eq_right (not_lt.mp h2)]

theorem process_sample_out (powf : K → K → K) (st : State K) (x : K) :
    (process_sample powf st x).1
      = max (-1) (min (((apply_band_agc powf (st.band_ctrl 0) (band_input st x 0)).1
          + (apply_band_agc powf (st.band_ctrl 1) (band_input st x 1)).1
          + (apply_band_agc powf (st.band_ctrl 2) (band_input st x 2)).1) / 3) 1) := by
  obtain ⟨h, -, -, -⟩ := filter_band_fold powf st x
  simp only [process_sample, clip_eq, h]
  simp only [finRange_three, List.foldl_cons, List.foldl_nil, zero_add]
  norm_num

theorem process_sample_ctrl (powf : K → K → K) (st : State K) (x : K) (b : Fin 3) :
    (process_sample powf st x).2.band_ctrl b
      = (apply_band_agc powf (st.band_ctrl b) (band_input st x b)).2 :=
  (filter_band_fold powf st x).2.2.2 b

theorem process_sample_stage0 (powf : K → K → K) (st : State K) (x : K) (b : Fin 3) :
    (process_sample powf st x).2.bands (stage0 b) = (biquad_process (st.bands (stage0 b)) x).2 :=
  (filter_band_fold powf st x).2.1 b

theorem process_sample_stage1 (powf : K → K → K) (st : State K) (x : K) (b : Fin 3) :
    (process_sample powf st x).2.bands (stage1 b)
      = (biquad_process (st.bands (stage1 b)) (biquad_process (st.bands (stage0 b)) x).1).2 :=
  (filter_band_fold powf st x).2.2.1 b

/-- A property of the state that every `process_sample` call preserves holds
after any number of calls. -/
theorem process_stream_invariant (powf : K → K → K) (P : State K → Prop)
    (hP : ∀ st x, P st → P (process_sample powf st x).2) :
    ∀ (xs : List K) (st : State K), P st → P (process_stream powf st xs).2 := by
  intro xs
  induction xs with
  | nil => intro st h; exact h
  | cons x xs ih => intro st h; exact ih _ (hP st x h)

/-! ## Bounds on the gain -/

theorem agc_clamped_bounds (powf : K → K → K) (b : band_agc_t K) (s : K)
    (hmax : 0.03 ≤ b.max_gain) :
    0.03 ≤ agc_clamped powf b s ∧ agc_clamped powf b s ≤ b.max_gain := by
  rw [agc_clamped_eq]
  exact ⟨le_max_left _ _, max_le hmax (min_le_right _ _)⟩

theorem agc_gain_bounds (powf : K → K → K) (b : band_agc_t K) (s : K)
    (hmax : 0.03 ≤ b.max_gain) (hlo : 0.03 ≤ b.gain) (hhi : b.gain ≤ b.max_gain) :
    0.03 ≤ agc_gain powf b s ∧ agc_gain powf b s ≤ b.max_gain := by
  obtain ⟨h1, h2⟩ := agc_clamped_bounds powf b s hmax
  simp only [agc_gain]
  norm_num at h1 hlo hmax ⊢
  split_ifs with h
  · constructor <;> linarith
  · constructor <;> linarith

/-! ## The state built by `init_bands` -/

theorem init_bands_ctrl (st0 : State K) (i : Fin 3) :
    (init_bands st0).band_ctrl i
      = { alpha := 0.995, env := 0.0, threshold := 0.1, max_gain := 10.0, gain := 1.0 } := by
  simp only [init_bands, finRange_three, List.foldl_cons, List.foldl_nil]
  fin_cases i <;> simp [init_ctrl, Function.update]

theorem init_bands_low (st0 : State K) (i : Fin 6) (h : i.val < 2) :
    (init_bands st0).bands i = biquad_lit 0.2929 0.5858 0.2929 (-0.0000) 0.1716 := by
  fin_cases i <;> simp at h <;> simp [init_bands, Function.update]

theorem init_bands_high (st0 : State K) (i : Fin 6) (h : 2 ≤ i.val) :
    (init_bands st0).bands i = biquad_lit 0.2066 0 (-0.2066) (-0.0000) 0.5868 := by
  fin_cases i <;> simp at h <;> simp [init_bands, Function.update]

/-- One `process_sample` call keeps every band's `max_gain` at 10 and every
band's gain in `[0.03, 10]`. -/
theorem process_sample_gain_range (powf : K → K → K) (st : State K) (x : K)
    (h : ∀ i, (st.band_ctrl i).max_gain = 10.0 ∧
      0.03 ≤ (st.band_ctrl i).gain ∧ (st.band_ctrl i).gain ≤ 10.0) (i : Fin 3) :
    ((process_sample powf st x).2.band_ctrl i).max_gain = 10.0 ∧
      0.03 ≤ ((process_sample powf st x).2.band_ctrl i).gain ∧
      ((process_sample powf st x).2.band_ctrl i).gain ≤ 10.0 := by
  obtain ⟨hm, hlo, hhi⟩ := h i
  rw [process_sample_ctrl, apply_band_agc_eq]
  have hmax : (0.03 : K) ≤ (st.band_ctrl i).max_gain := by rw [hm]; norm_num
  have hb := agc_gain_bounds powf (st.band_ctrl i) (band_input st x i) hmax hlo (by rw [hm]; exact hhi)
  rw [hm] at hb
  exact ⟨hm, hb.1, hb.2⟩

/-! ## Output range and the main loop -/

theorem process_sample_range (powf : K → K → K) (st : State K) (x : K) :
    -1 ≤ (process_sample powf st x).1 ∧ (process_sample powf st x).1 ≤ 1 := by
  rw [process_sample_out]
  exact ⟨le_max_left _ _, max_le (by norm_num) (min_le_right _ _)⟩

theorem to_int16_range [FloorRing K] (y : K) (hlo : -1 ≤ y) (hhi : y ≤ 1) :
    -32767 ≤ to_int16 (y * 32767.0) ∧ to_int16 (y * 32767.0) ≤ 32767 := by
  have h1 : ((-32767 : Int) : K) ≤ y * 32767.0 := by push_cast; norm_num; linarith
  have h2 : y * 32767.0 ≤ ((32767 : Int) : K) := by push_cast; norm_num; linarith
  unfold to_int16
  split_ifs with h
  · refine ⟨le_trans (by norm_num) (Int.floor_nonneg.mpr h), ?_⟩
    exact Int.cast_le.mp (le_trans (Int.floor_le _) h2)
  · refine ⟨?_, Int.ceil_le.mpr h2⟩
    exact Int.cast_le.mp (le_trans h1 (Int.le_ceil _))

theorem main_loop_eq [FloorRing K] (powf : K → K → K) (samples : List Int) :
    ∀ st : State K, main_loop powf st samples
      = (((process_stream powf st (samples.map fun s : Int => (s : K) / 32768.0)).1.map
            fun y => to_int16 (y * 32767.0)),
          (process_stream powf st (samples.map fun s : Int => (s : K) / 32768.0)).2) := by
  induction samples with
  | nil => intro st; rfl
  | cons s more ih =>
    intro st
    simp only [main_loop, List.map_cons, process_stream, ih]

theorem process_stream_forall (powf : K → K → K) (P : K → Prop)
    (hP : ∀ st x, P (process_sample powf st x).1) :
    ∀ (xs : List K) (st : State K), ∀ y ∈ (process_stream powf st xs).1, P y := by
  intro xs
  induction xs with
  | nil => intro st y hy; simp [process_stream] at hy
  | cons x xs ih =>
    intro st y hy
    simp only [process_stream, List.mem_cons] at hy
    rcases hy with rfl | hy
    · exact hP st x
    · exact ih _ y hy

theorem biquad_process_zero (q : biquad_t K) (h : delays_zero q) :
    (biquad_process q 0).1 = 0 ∧ delays_zero (biquad_process q 0).2 := by
  obtain ⟨h1, h2, h3, h4⟩ := h
  simp [biquad_process, delays_zero, h1, h2, h3, h4]

theorem apply_band_agc_zero (powf : K → K → K) (b : band_agc_t K) (h : b.env = 0) :
    (apply_band_agc powf b 0).1 = 0 ∧ (apply_band_agc powf b 0).2.env = 0 := by
  rw [apply_band_agc_eq]
  simp [agc_env, h]

/-- Every index of `bands` is `2b` or `2b+1` for some band `b`. -/
theorem stage_cases (i : Fin 6) : ∃ b : Fin 3, i = stage0 b ∨ i = stage1 b := by
  fin_cases i
  · exact ⟨0, Or.inl rfl⟩
  · exact ⟨0, Or.inr rfl⟩
  · exact ⟨1, Or.inl rfl⟩
  · exact ⟨1, Or.inr rfl⟩
  · exact ⟨2, Or.inl rfl⟩
  · exact ⟨2, Or.inr rfl⟩

theorem process_sample_zero (powf : K → K → K) (st : State K)
    (h : (∀ i, delays_zero (st.bands i)) ∧ ∀ i, (st.band_ctrl i).env = 0) :
    (process_sample powf st 0).1 = 0 ∧
      ((∀ i, delays_zero ((process_sample powf st 0).2.bands i)) ∧
        ∀ i, ((process_sample powf st 0).2.band_ctrl i).env = 0) := by
  obtain ⟨hq, he⟩ := h
  have hin : ∀ b, band_input st 0 b = 0 := by
    intro b
    simp only [band_input, (biquad_process_zero _ (hq (stage0 b))).1,
      (biquad_process_zero _ (hq (stage1 b))).1]
  refine ⟨?_, ?_, ?_⟩
  · rw [process_sample_out]
    simp only [hin, (apply_band_agc_zero powf _ (he _)).1]
    norm_num
  · intro i
    obtain ⟨b, rfl | rfl⟩ := stage_cases i
    · rw [process_sample_stage0]
      exact (biquad_process_zero _ (hq _)).2
    · rw [process_sample_stage1, (biquad_process_zero _ (hq (stage0 b))).1]
      exact (biquad_process_zero _ (hq _)).2
  · intro i
    rw [process_sample_ctrl, hin]
    exact (apply_band_agc_zero powf _ (he i)).2

theorem process_stream_invariant_on (powf : K → K → K) (P : State K → Prop) (Q : K → Prop)
    (hP : ∀ st x, Q x → P st → P (process_sample powf st x).2) :
    ∀ (xs : List K), (∀ x ∈ xs, Q x) → ∀ st : State K, P st → P (process_stream powf st xs).2 := by
  intro xs
  induction xs with
  | nil => intro _ st h; exact h
  | cons x xs ih =>
    intro hQ st h
    exact ih (fun y hy => hQ y (List.mem_cons_of_mem _ hy)) _
      (hP st x (hQ x (List.mem_cons_self _ _)) h)

theorem process_stream_zero (powf : K → K → K) (n : Nat) :
    ∀ st : State K, ((∀ i, delays_zero (st.bands i)) ∧ ∀ i, (st.band_ctrl i).env = 0) →
      (process_stream powf st (List.replicate n 0)).1 = List.replicate n 0 := by
  induction n with
  | zero => intro st _; rfl
  | succ n ih =>
    intro st h
    obtain ⟨h0, h1⟩ := process_sample_zero powf st h
    simp only [List.replicate_succ, process_stream, h0, ih _ h1]

theorem init_bands_silent (st0 : State K) :
    (∀ i, delays_zero ((init_bands st0).bands i)) ∧ ∀ i, ((init_bands st0).band_ctrl i).env = 0 := by
  constructor
  · intro i
    by_cases h : i.val < 2
    · rw [init_bands_low st0 i h]; simp [delays_zero, biquad_lit]
    · rw [init_bands_high st0 i (not_lt.mp h)]; simp [delays_zero, biquad_lit]
  · intro i
    rw [init_bands_ctrl]
    norm_num

theorem to_int16_zero [FloorRing K] : to_int16 ((0 : K) * 32767.0) = 0 := by
  simp [to_int16]

/-! ## Linearity of a biquad stage -/

theorem biquad_process_comb (a c : K) (q r : biquad_t K) (h : same_coeffs q r) (x u : K) :
    (biquad_process (biquad_comb a c q r) (a * x + c * u)).1
        = a * (biquad_process q x).1 + c * (biquad_process r u).1 ∧
      (biquad_process (biquad_comb a c q r) (a * x + c * u)).2
        = biquad_comb a c (biquad_process q x).2 (biquad_process r u).2 := by
  obtain ⟨h0, h1, h2, h3, h4⟩ := h
  have hy : (biquad_process (biquad_comb a c q r) (a * x + c * u)).1
      = a * (biquad_process q x).1 + c * (biquad_process r u).1 := by
    simp only [biquad_process, biquad_comb, ← h0, ← h1, ← h2, ← h3, ← h4]
    ring
  refine ⟨hy, ?_⟩
  simp only [biquad_process, biquad_comb, ← h0, ← h1, ← h2, ← h3, ← h4, biquad_t.mk.injEq,
    true_and, and_true]
  ring

theorem same_coeffs_step (q r : biquad_t K) (h : same_coeffs q r) (x u : K) :
    same_coeffs (biquad_process q x).2 (biquad_process r u).2 := h

theorem biquad_run_comb (a c : K) (xs : List K) :
    ∀ (us : List K) (q r : biquad_t K), same_coeffs q r → xs.length = us.length →
      (biquad_run (biquad_comb a c q r) (List.zipWith (fun x u => a * x + c * u) xs us)).1
          = List.zipWith (fun y v => a * y + c * v) (biquad_run q xs).1 (biquad_run r us).1 ∧
        (biquad_run (biquad_comb a c q r) (List.zipWith (fun x u => a * x + c * u) xs us)).2
          = biquad_comb a c (biquad_run q xs).2 (biquad_run r us).2 := by
  induction xs with
  | nil =>
    intro us q r _ hl
    cases us with
    | nil => exact ⟨rfl, rfl⟩
    | cons u us => simp at hl
  | cons x xs ih =>
    intro us q r h hl
    cases us with
    | nil => simp at hl
    | cons u us =>
      obtain ⟨h1, h2⟩ := biquad_process_comb a c q r h x u
      obtain ⟨i1, i2⟩ := ih us _ _ (same_coeffs_step q r h x u) (by simpa using hl)
      simp only [List.zipWith_cons_cons, biquad_run, h1, h2, i1, i2, and_self]

theorem biquad_comb_zero (a c : K) (q : biquad_t K) (h : delays_zero q) :
    biquad_comb a c q q = q := by
  obtain ⟨h1, h2, h3, h4⟩ := h
  cases q
  simp only at h1 h2 h3 h4
  simp [biquad_comb, h1, h2, h3, h4]

/-! ## Runs of the gain controller -/

theorem agc_run_invariant (powf : K → K → K) (I : band_agc_t K → Prop)
    (hI : ∀ b s, I b → I (apply_band_agc powf b s).2) :
    ∀ (ss : List K) (b : band_agc_t K), I b → I (agc_run powf b ss) := by
  intro ss
  induction ss with
  | nil => intro b h; exact h
  | cons s ss ih => intro b h; exact ih _ (hI b s h)

/-- The run over the first `k+1` samples is the run over the first `k`
followed by one more call. -/
theorem agc_run_take_succ (powf : K → K → K) :
    ∀ (ss : List K) (b : band_agc_t K) (k : Nat) (hk : k < ss.length),
      agc_run powf b (ss.take (k + 1))
        = (apply_band_agc powf (agc_run powf b (ss.take k)) (ss.get ⟨k, hk⟩)).2 := by
  intro ss
  induction ss with
  | nil => intro b k hk; simp at hk
  | cons s ss ih =>
    intro b k hk
    cases k with
    | zero => rfl
    | succ k =>
      have hk' : k < ss.length := by simpa using hk
      simpa [agc_run] using ih (apply_band_agc powf b s).2 k hk'

/-- A condition that holds at every call of a run holds at the `k`-th call. -/
theorem agc_steps_satisfy_at (powf : K → K → K) (P : band_agc_t K → K → Prop) :
    ∀ (ss : List K) (b : band_agc_t K), agc_steps_satisfy powf P b ss →
      ∀ (k : Nat) (hk : k < ss.length), P (agc_run powf b (ss.take k)) (ss.get ⟨k, hk⟩) := by
  intro ss
  induction ss with
  | nil => intro b _ k hk; simp at hk
  | cons s ss ih =>
    intro b h k hk
    cases k with
    | zero => exact h.1
    | succ k =>
      have hk' : k < ss.length := by simpa using hk
      simpa [agc_run] using ih (apply_band_agc powf b s).2 h.2 k hk'

/-- If every call of a run multiplies the quantity `f` of the controller by
`ρ`, the run multiplies it by `ρ ^ n`. -/
theorem agc_run_geometric (powf : K → K → K) (P : band_agc_t K → K → Prop)
    (I : band_agc_t K → Prop) (f : band_agc_t K → K) (ρ : K)
    (hI : ∀ b s, I b → I (apply_band_agc powf b s).2)
    (hstep : ∀ b s, I b → P b s → f (apply_band_agc powf b s).2 = ρ * f b) :
    ∀ (ss : List K) (b : band_agc_t K), I b → agc_steps_satisfy powf P b ss →
      f (agc_run powf b ss) = ρ ^ ss.length * f b := by
  intro ss
  induction ss with
  | nil => intro b _ _; simp [agc_run]
  | cons s ss ih =>
    intro b hb h
    rw [agc_run, ih _ (hI b s hb) h.2, hstep b s hb h.1, List.length_cons, pow_succ]
    ring

/-! ## Loud and quiet steps over the reals -/

/-- In the loud branch the target before clamping is at least `max_gain`. -/
theorem agc_target_loud (b : band_agc_t ℝ) (s : ℝ) (hr : agc_ratio b s ≥ 1)
    (hmax : 1 ≤ b.max_gain) : b.max_gain ≤ agc_target Real.rpow b s := by
  have hp : (1 : ℝ) ≤ agc_ratio b s ^ ((3 : ℝ) / 5) :=
    Real.one_le_rpow hr (by norm_num)
  have hr' : agc_ratio b s ≥ 1.0 := by norm_num; exact hr
  simp only [agc_target, hr', if_true]
  norm_num
  nlinarith [mul_nonneg (sub_nonneg.mpr hmax) (sub_nonneg.mpr hp)]

theorem agc_clamped_loud (b : band_agc_t ℝ) (s : ℝ) (hr : agc_ratio b s ≥ 1)
    (hmax : 1 ≤ b.max_gain) : agc_clamped Real.rpow b s = b.max_gain := by
  rw [agc_clamped_eq, min_eq_right (agc_target_loud b s hr hmax)]
  exact max_eq_right (le_trans (by norm_num) hmax)

theorem agc_gain_loud (b : band_agc_t ℝ) (s : ℝ) (hr : agc_ratio b s ≥ 1)
    (hmax : b.max_gain = 10) (hhi : b.gain ≤ 10) :
    10 - agc_gain Real.rpow b s = (1 - 0.03) * (10 - b.gain) := by
  have hc := agc_clamped_loud b s hr (by rw [hmax]; norm_num)
  rw [hmax] at hc
  simp only [agc_gain, hc]
  split_ifs with h
  · ring
  · have : b.gain = 10 := le_antisymm hhi (not_lt.mp h)
    rw [this]; ring

/-- When `ratio^4 ≤ 0.03` the quiet branch is taken and the clamped target is
the lower bound. -/
theorem agc_clamped_quiet (b : band_agc_t ℝ) (s : ℝ) (hr : agc_ratio b s ^ 4 ≤ 0.03) :
    agc_clamped Real.rpow b s = 0.03 := by
  have hlt : ¬ agc_ratio b s ≥ 1.0 := by
    intro h
    have h1 : (1 : ℝ) ≤ agc_ratio b s := by norm_num at h; exact h
    have : (1 : ℝ) ≤ agc_ratio b s ^ 4 := one_le_pow₀ h1
    norm_num at hr
    linarith
  have ht : agc_target Real.rpow b s = agc_ratio b s ^ 4 := by
    simp only [agc_target, hlt, if_false, rpow_four]
  rw [agc_clamped_eq, ht]
  exact max_eq_left (le_trans (min_le_left _ _) hr)

theorem agc_gain_quiet (b : band_agc_t ℝ) (s : ℝ) (hr : agc_ratio b s ^ 4 ≤ 0.03)
    (hlo : 0.03 ≤ b.gain) :
    agc_gain Real.rpow b s - 0.03 = (1 - 0.001) * (b.gain - 0.03) := by
  simp only [agc_gain, agc_clamped_quiet b s hr]
  have h : ¬ (0.03 : ℝ) > b.gain := not_lt.mpr hlo
  simp only [h, if_false]
  ring

/-- A call of `apply_band_agc` keeps `threshold = 0.1`, `max_gain = 10` and
`0.03 ≤ gain ≤ 10`. -/
theorem agc_fixed_inv (b : band_agc_t ℝ) (s : ℝ)
    (h : b.threshold = 0.1 ∧ b.max_gain = 10 ∧ 0.03 ≤ b.gain ∧ b.gain ≤ 10) :
    (apply_band_agc Real.rpow b s).2.threshold = 0.1 ∧
      (apply_band_agc Real.rpow b s).2.max_gain = 10 ∧
      0.03 ≤ (apply_band_agc Real.rpow b s).2.gain ∧
      (apply_band_agc Real.rpow b s).2.gain ≤ 10 := by
  obtain ⟨ht, hm, hlo, hhi⟩ := h
  have hb := agc_gain_bounds Real.rpow b s (by rw [hm]; norm_num) hlo (by rw [hm]; exact hhi)
  rw [hm] at hb
  exact ⟨ht, hm, hb.1, hb.2⟩

theorem main_loop_zero [FloorRing K] (powf : K → K → K) (st0 : State K) (n : Nat) :
    (main_loop powf (init_bands st0) (List.replicate n 0)).1 = List.replicate n 0 := by
  have hmap : (List.replicate n (0 : Int)).map (fun s : Int => (s : K) / 32768.0)
      = List.replicate n 0 := by
    simp [List.map_replicate]
  rw [main_loop_eq, hmap, process_stream_zero powf n (init_bands st0) (init_bands_silent st0)]
  simp only [List.map_replicate, to_int16_zero]

/-- The run of `main` when at least two arguments are given and both files
open. -/
theorem main_success [FloorRing K] (powf : K → K → K) (argv : List String) (fs : Files)
    (samples : List Int) (h1 : 3 ≤ argv.length)
    (hin : fs.input (argv.getD 1 "") = some samples)
    (hout : fs.output_ok (argv.getD 2 "") = true) :
    main powf argv fs =
      { exit_code := 0
        stdout := ["Processing done: " ++ argv.getD 1 "" ++ " -> " ++ argv.getD 2 "" ++ "\n"]
        perror := []
        fopen_calls := [(argv.getD 1 "", "rb"), (argv.getD 2 "", "wb")]
        written := (main_loop powf (init_bands zero_state) samples).1 } := by
  have h1' : ¬ argv.length < 3 := not_lt.mpr h1
  simp only [main, h1', if_false, hin, hout]
  rfl

/-! ## Construction and fixed parameters -/

theorem State_ext {L : Type} (s t : State L) (hb : ∀ i, s.bands i = t.bands i)
    (hc : ∀ i, s.band_ctrl i = t.band_ctrl i) : s = t := by
  cases s
  cases t
  simp only [State.mk.injEq]
  exact ⟨funext hb, funext hc⟩

/-- The state built by `init_bands` does not depend on the state it is
called in. -/
theorem init_bands_const (st0 st1 : State K) : init_bands st1 = init_bands st0 := by
  apply State_ext
  · intro i
    by_cases h : i.val < 2
    · rw [init_bands_low st1 i h, init_bands_low st0 i h]
    · rw [init_bands_high st1 i (not_lt.mp h), init_bands_high st0 i (not_lt.mp h)]
  · intro i
    rw [init_bands_ctrl, init_bands_ctrl]

/-! ## Envelope and fixed parameters -/

theorem agc_env_nonneg (b : band_agc_t K) (s : K)
    (h0 : 0 ≤ b.alpha) (h1 : b.alpha ≤ 1) (he : 0 ≤ b.env) : 0 ≤ agc_env b s := by
  have h2 : (0 : K) ≤ 1.0 - b.alpha := by norm_num; exact h1
  exact add_nonneg (mul_nonneg h0 he) (mul_nonneg h2 (abs_nonneg s))

/-- One `process_sample` call keeps every controller's `alpha`, `threshold`
and `max_gain`. -/
theorem process_sample_ctrl_fixed (powf : K → K → K) (st : State K) (x : K) (i : Fin 3) :
    ((process_sample powf st x).2.band_ctrl i).alpha = (st.band_ctrl i).alpha ∧
      ((process_sample powf st x).2.band_ctrl i).threshold = (st.band_ctrl i).threshold ∧
      ((process_sample powf st x).2.band_ctrl i).max_gain = (st.band_ctrl i).max_gain := by
  rw [process_sample_ctrl, apply_band_agc_eq]
  exact ⟨rfl, rfl, rfl⟩

/-- One `process_sample` call keeps every stage's coefficients. -/
theorem process_sample_same_coeffs (powf : K → K → K) (st : State K) (x : K) (j : Fin 6) :
    same_coeffs ((process_sample powf st x).2.bands j) (st.bands j) := by
  obtain ⟨b, rfl | rfl⟩ := stage_cases j
  · rw [process_sample_stage0]; exact ⟨rfl, rfl, rfl, rfl, rfl⟩
  · rw [process_sample_stage1]; exact ⟨rfl, rfl, rfl, rfl, rfl⟩

/-! ## One output per input -/

theorem process_stream_length (powf : K → K → K) (xs : List K) :
    ∀ st : State K, (process_stream powf st xs).1.length = xs.length := by
  induction xs with
  | nil => intro st; rfl
  | cons x xs ih => intro st; simp [process_stream, ih]

/-- The `k`-th output of a run is what `process_sample` returns on the `k`-th
input in the state left by the first `k` calls. -/
theorem process_stream_getElem (powf : K → K → K) (xs : List K) :
    ∀ (st : State K) (k : Nat),
      (process_stream powf st xs).1[k]?
        = xs[k]?.map fun x => (process_sample powf (process_stream powf st (xs.take k)).2 x).1 := by
  induction xs with
  | nil => intro st k; simp [process_stream]
  | cons x xs ih =>
    intro st k
    cases k with
    | zero => simp [process_stream]
    | succ k => simp [process_stream, ih]

theorem main_loop_state_take [FloorRing K] (powf : K → K → K) (ins : List Int) (st : State K)
    (k : Nat) :
    (main_loop powf st (ins.take k)).2
      = (process_stream powf st ((ins.map fun s : Int => (s : K) / 32768.0).take k)).2 := by
  rw [main_loop_eq, List.map_take]

/-! ## Bands 1 and 2 -/

theorem band_input_dup (st : State K) (x : K)
    (h : st.bands 2 = st.bands 4 ∧ st.bands 3 = st.bands 5 ∧ st.band_ctrl 1 = st.band_ctrl 2) :
    band_input st x 1 = band_input st x 2 := by
  obtain ⟨h2, h3, -⟩ := h
  have e0 : st.bands (stage0 1) = st.bands (stage0 2) := h2
  have e1 : st.bands (stage1 1) = st.bands (stage1 2) := h3
  simp only [band_input, e0, e1]

theorem process_sample_dup (powf : K → K → K) (st : State K) (x : K)
    (h : st.bands 2 = st.bands 4 ∧ st.bands 3 = st.bands 5 ∧ st.band_ctrl 1 = st.band_ctrl 2) :
    (process_sample powf st x).2.bands 2 = (process_sample powf st x).2.bands 4 ∧
      (process_sample powf st x).2.bands 3 = (process_sample powf st x).2.bands 5 ∧
      (process_sample powf st x).2.band_ctrl 1 = (process_sample powf st x).2.band_ctrl 2 := by
  have hin := band_input_dup st x h
  obtain ⟨h2, h3, hc⟩ := h
  have e0 : st.bands (stage0 1) = st.bands (stage0 2) := h2
  have e1 : st.bands (stage1 1) = st.bands (stage1 2) := h3
  refine ⟨?_, ?_, ?_⟩
  · show (process_sample powf st x).2.bands (stage0 1)
      = (process_sample powf st x).2.bands (stage0 2)
    rw [process_sample_stage0, process_sample_stage0, e0]
  · show (process_sample powf st x).2.bands (stage1 1)
      = (process_sample powf st x).2.bands (stage1 2)
    rw [process_sample_stage1, process_sample_stage1, e0, e1]
  · rw [process_sample_ctrl, process_sample_ctrl, hin, hc]

theorem init_bands_dup (st0 : State K) :
    (init_bands st0).bands 2 = (init_bands st0).bands 4 ∧
      (init_bands st0).bands 3 = (init_bands st0).bands 5 ∧
      (init_bands st0).band_ctrl 1 = (init_bands st0).band_ctrl 2 := by
  refine ⟨?_, ?_, ?_⟩
  · rw [init_bands_high st0 2 (by decide), init_bands_high st0 4 (by decide)]
  · rw [init_bands_high st0 3 (by decide), init_bands_high st0 5 (by decide)]
  · rw [init_bands_ctrl, init_bands_ctrl]

/-! ## Negated input -/

theorem biquad_process_neg (q : biquad_t K) (x : K) :
    biquad_process (biquad_neg q) (-x)
      = (-(biquad_process q x).1, biquad_neg (biquad_process q x).2) := by
  simp only [biquad_process, biquad_neg, Prod.mk.injEq, biquad_t.mk.injEq, and_true, true_and]
  constructor <;> ring

theorem apply_band_agc_neg (powf : K → K → K) (b : band_agc_t K) (s : K) :
    apply_band_agc powf b (-s)
      = (-(apply_band_agc powf b s).1, (apply_band_agc powf b s).2) := by
  have hg : agc_gain powf b (-s) = agc_gain powf b s := by
    simp only [agc_gain, agc_clamped, agc_target, agc_ratio, agc_env, abs_neg]
  have he : agc_env b (-s) = agc_env b s := by
    simp only [agc_env, abs_neg]
  simp only [apply_band_agc_eq, hg, he, neg_mul]

theorem clip_neg (v : K) : max (-1) (min (-v) 1) = -max (-1) (min v 1) := by
  rcases le_total v 1 with h1 | h1 <;> rcases le_total v (-1) with h2 | h2
  · rw [min_eq_left h1, max_eq_left h2, min_eq_right (by linarith), max_eq_right (by linarith),
      neg_neg]
  · rw [min_eq_left h1, max_eq_right h2, min_eq_left (by linarith), max_eq_right (by linarith)]
  · linarith
  · rw [min_eq_right h1, min_eq_left (by linarith), max_eq_left (by linarith),
      max_eq_right (by linarith)]

theorem process_sample_neg (powf : K → K → K) (st st' : State K) (x : K)
    (h : (∀ i, st'.bands i = biquad_neg (st.bands i)) ∧ ∀ b, st'.band_ctrl b = st.band_ctrl b) :
    (process_sample powf st' (-x)).1 = -(process_sample powf st x).1 ∧
      ((∀ i, (process_sample powf st' (-x)).2.bands i
          = biquad_neg ((process_sample powf st x).2.bands i)) ∧
        ∀ b, (process_sample powf st' (-x)).2.band_ctrl b
          = (process_sample powf st x).2.band_ctrl b) := by
  obtain ⟨hq, hc⟩ := h
  have hin : ∀ b, band_input st' (-x) b = -band_input st x b := by
    intro b
    simp only [band_input, hq, biquad_process_neg]
  refine ⟨?_, ?_, ?_⟩
  · rw [process_sample_out, process_sample_out]
    simp only [hin, hc, apply_band_agc_neg]
    rw [← clip_neg]
    congr 2
    ring
  · intro i
    obtain ⟨b, rfl | rfl⟩ := stage_cases i
    · rw [process_sample_stage0, process_sample_stage0, hq, biquad_process_neg]
    · rw [process_sample_stage1, process_sample_stage1, hq, hq, biquad_process_neg,
        biquad_process_neg]
  · intro b
    rw [process_sample_ctrl, process_sample_ctrl, hin, hc, apply_band_agc_neg]

theorem process_stream_neg (powf : K → K → K) (xs : List K) :
    ∀ st st' : State K,
      ((∀ i, st'.bands i = biquad_neg (st.bands i)) ∧ ∀ b, st'.band_ctrl b = st.band_ctrl b) →
      (process_stream powf st' (xs.map fun x => -x)).1
          = (process_stream powf st xs).1.map (fun y => -y) ∧
        ((∀ i, (process_stream powf st' (xs.map fun x => -x)).2.bands i
            = biquad_neg ((process_stream powf st xs).2.bands i)) ∧
          ∀ b, (process_stream powf st' (xs.map fun x => -x)).2.band_ctrl b
            = (process_stream powf st xs).2.band_ctrl b) := by
  induction xs with
  | nil => intro st st' h; exact ⟨rfl, h⟩
  | cons x xs ih =>
    intro st st' h
    obtain ⟨h1, h2⟩ := process_sample_neg powf st st' x h
    obtain ⟨i1, i2⟩ := ih _ _ h2
    simp only [List.map_cons, process_stream, h1, i1]
    exact ⟨trivial, i2⟩

theorem biquad_neg_of_zero (q : biquad_t K) (h : delays_zero q) : q = biquad_neg q := by
  obtain ⟨h1, h2, h3, h4⟩ := h
  cases q
  simp only at h1 h2 h3 h4
  simp [biquad_neg, h1, h2, h3, h4]

/-! ## The first call after `init_bands` -/

/-- On the state built by `init_bands` the two cascaded stages of a band
multiply the input by the square of the band's `b0`. -/
theorem band_input_init (st0 : State K) (x : K) (b : Fin 3) :
    band_input (init_bands st0) x b
      = if b = 0 then 0.2929 * (0.2929 * x) else 0.2066 * (0.2066 * x) := by
  fin_cases b
  · simp only [band_input]
    rw [init_bands_low st0 (stage0 _) (by decide), init_bands_low st0 (stage1 _) (by decide)]
    simp [biquad_process, biquad_lit]
  · simp only [band_input]
    rw [init_bands_high st0 (stage0 _) (by decide), init_bands_high st0 (stage1 _) (by decide)]
    simp [biquad_process, biquad_lit]
  · simp only [band_input]
    rw [init_bands_high st0 (stage0 _) (by decide), init_bands_high st0 (stage1 _) (by decide)]
    simp [biquad_process, biquad_lit]

theorem band_input_init_abs (st0 : State K) (x : K) (b : Fin 3) :
    |band_input (init_bands st0) x b| ≤ 0.0858 * |x| := by
  rw [band_input_init]
  have hx := abs_nonneg x
  split_ifs
  · rw [← mul_assoc, abs_mul, abs_of_nonneg (by norm_num : (0 : K) ≤ 0.2929 * 0.2929)]
    norm_num
    nlinarith
  · rw [← mul_assoc, abs_mul, abs_of_nonneg (by norm_num : (0 : K) ≤ 0.2066 * 0.2066)]
    norm_num
    nlinarith

theorem main_loop_range [FloorRing K] (powf : K → K → K) (st : State K) (samples : List Int) :
    ∀ o ∈ (main_loop powf st samples).1, -32767 ≤ o ∧ o ≤ 32767 := by
  intro o ho
  rw [main_loop_eq] at ho
  obtain ⟨y, hy, rfl⟩ := List.mem_map.mp ho
  have hy' := process_stream_forall powf (fun y => -1 ≤ y ∧ y ≤ 1)
    (process_sample_range powf) _ st y hy
  exact to_int16_range y hy'.1 hy'.2

theorem main_loop_length [FloorRing K] (powf : K → K → K) (st : State K) (samples : List Int) :
    (main_loop powf st samples).1.length = samples.length := by
  rw [main_loop_eq]
  simp [process_stream_length]

theorem main_loop_head_zero [FloorRing K] (powf : K → K → K) (st0 : State K)
    (more : List Int) :
    (main_loop powf (init_bands st0) (0 :: more)).1.head? = some 0 := by
  have h0 : ((0 : Int) : K) / 32768.0 = 0 := by simp
  simp only [main_loop, h0, (process_sample_zero powf _ (init_bands_silent st0)).1,
    to_int16_zero, List.head?_cons]

/-- The quiet first call over the reals: ratio, clamped target and new gain
of band `b` on the state built by `init_bands`, for `|x| ≤ 1`. -/
theorem first_call_agc (st0 : State ℝ) (x : ℝ) (hx : |x| ≤ 1) (b : Fin 3) :
    agc_ratio ((init_bands st0).band_ctrl b) (band_input (init_bands st0) x b) ^ 4 ≤ 0.03 := by
  have hy := band_input_init_abs st0 x b
  have hy0 := abs_nonneg (band_input (init_bands st0) x b)
  have hr : agc_ratio ((init_bands st0).band_ctrl b) (band_input (init_bands st0) x b)
      = 0.05 * |band_input (init_bands st0) x b| := by
    rw [init_bands_ctrl]
    simp only [agc_ratio, agc_env]
    norm_num
    ring
  rw [hr]
  have h1 : 0.05 * |band_input (init_bands st0) x b| ≤ 0.1 := by norm_num at hy ⊢; nlinarith
  have h0 : 0 ≤ 0.05 * |band_input (init_bands st0) x b| := by positivity
  calc (0.05 * |band_input (init_bands st0) x b|) ^ 4 ≤ (0.1 : ℝ) ^ 4 :=
        pow_le_pow_left₀ h0 h1 4
    _ ≤ 0.03 := by norm_num

theorem first_call_gain (st0 : State ℝ) (x : ℝ) (hx : |x| ≤ 1) (b : Fin 3) :
    agc_gain Real.rpow ((init_bands st0).band_ctrl b) (band_input (init_bands st0) x b)
      = 0.99903 := by
  have h := agc_gain_quiet _ _ (first_call_agc st0 x hx b)
    (by rw [init_bands_ctrl]; norm_num)
  rw [init_bands_ctrl] at h ⊢
  norm_num at h ⊢
  linarith

theorem first_call_out (st0 : State ℝ) (x : ℝ) (hx : |x| ≤ 1) :
    (process_sample Real.rpow (init_bands st0) x).1
      = (0.2929 * 0.2929 + 2 * (0.2066 * 0.2066)) * 0.99903 / 3 * x := by
  have s0 : (apply_band_agc Real.rpow ((init_bands st0).band_ctrl 0)
      (band_input (init_bands st0) x 0)).1 = 0.2929 * (0.2929 * x) * 0.99903 := by
    rw [apply_band_agc_eq, first_call_gain st0 x hx, band_input_init, if_pos rfl]
  have s1 : (apply_band_agc Real.rpow ((init_bands st0).band_ctrl 1)
      (band_input (init_bands st0) x 1)).1 = 0.2066 * (0.2066 * x) * 0.99903 := by
    rw [apply_band_agc_eq, first_call_gain st0 x hx, band_input_init, if_neg (by decide)]
  have s2 : (apply_band_agc Real.rpow ((init_bands st0).band_ctrl 2)
      (band_input (init_bands st0) x 2)).1 = 0.2066 * (0.2066 * x) * 0.99903 := by
    rw [apply_band_agc_eq, first_call_gain st0 x hx, band_input_init, if_neg (by decide)]
  have hlo : -1 ≤ x := (abs_le.mp hx).1
  have hhi : x ≤ 1 := (abs_le.mp hx).2
  rw [process_sample_out, s0, s1, s2, min_eq_left (by norm_num; linarith),
    max_eq_right (by norm_num; linarith)]
  ring

/-! ## The target gain as a function of `ratio` -/

theorem agc_target_eq (powf : K → K → K) (b : band_agc_t K) (s : K) :
    agc_target powf b s = target_of_ratio powf b.max_gain (agc_ratio b s) :=
  rfl

theorem agc_clamped_eq_clamp (powf : K → K → K) (b : band_agc_t K) (s : K) :
    agc_clamped powf b s
      = clamp_target b.max_gain (target_of_ratio powf b.max_gain (agc_ratio b s)) :=
  rfl

theorem clamp_target_eq (mg t : K) : clamp_target mg t = max 0.03 (min t mg) := by
  simp only [clamp_target]
  by_cases h1 : t > mg
  · simp only [h1, if_true, min_eq_right (le_of_lt h1)]
    by_cases h2 : mg < 0.03
    · simp [h2, max_eq_left (le_of_lt h2)]
    · simp [h2, max_eq_right (not_lt.mp h2)]
  · simp only [h1, if_false, min_eq_left (not_lt.mp h1)]
    by_cases h2 : t < 0.03
    · simp [h2, max_eq_left (le_of_lt h2)]
    · simp [h2, max_eq_right (not_lt.mp h2)]

theorem target_loud (mg ratio : ℝ) (h : 1 ≤ ratio) :
    target_of_ratio Real.rpow mg ratio = 1 + (mg - 1) * ratio ^ ((3 : ℝ) / 5) := by
  have h' : ratio ≥ 1.0 := by norm_num; exact h
  simp only [target_of_ratio, h', if_true]
  norm_num

theorem target_quiet (mg ratio : ℝ) (h : ratio < 1) :
    target_of_ratio Real.rpow mg ratio = ratio ^ 4 := by
  have h' : ¬ ratio ≥ 1.0 := by norm_num; exact h
  simp only [target_of_ratio, h', if_false, rpow_four]

theorem target_loud_ge (mg ratio : ℝ) (h : 1 ≤ ratio) (hmg : 1 ≤ mg) :
    mg ≤ target_of_ratio Real.rpow mg ratio := by
  rw [target_loud mg ratio h]
  have hp : (1 : ℝ) ≤ ratio ^ ((3 : ℝ) / 5) := Real.one_le_rpow h (by norm_num)
  nlinarith [mul_nonneg (sub_nonneg.mpr hmg) (sub_nonneg.mpr hp)]

theorem target_loud_gt (mg ratio : ℝ) (h : 1 < ratio) (hmg : 1 < mg) :
    mg < target_of_ratio Real.rpow mg ratio := by
  rw [target_loud mg ratio (le_of_lt h)]
  have hp : (1 : ℝ) < ratio ^ ((3 : ℝ) / 5) := Real.one_lt_rpow h (by norm_num)
  nlinarith [mul_pos (sub_pos.mpr hmg) (sub_pos.mpr hp)]

theorem target_loud_le_linear (mg ratio : ℝ) (h : 1 ≤ ratio) (hmg : 1 ≤ mg) :
    target_of_ratio Real.rpow mg ratio ≤ 1 + (mg - 1) * ratio := by
  rw [target_loud mg ratio h]
  have hp : ratio ^ ((3 : ℝ) / 5) ≤ ratio ^ (1 : ℝ) :=
    Real.rpow_le_rpow_of_exponent_le h (by norm_num)
  rw [Real.rpow_one] at hp
  nlinarith [mul_le_mul_of_nonneg_left hp (sub_nonneg.mpr hmg)]

theorem target_loud_tendsto :
    Filter.Tendsto (fun r : ℝ => target_of_ratio Real.rpow 10 r) Filter.atTop Filter.atTop := by
  have h1 : Filter.Tendsto (fun r : ℝ => r ^ ((3 : ℝ) / 5)) Filter.atTop Filter.atTop :=
    tendsto_rpow_atTop (by norm_num)
  have h2 : Filter.Tendsto (fun r : ℝ => 1 + (10 - 1) * r ^ ((3 : ℝ) / 5))
      Filter.atTop Filter.atTop :=
    Filter.tendsto_atTop_add_const_left _ _ (h1.const_mul_atTop (by norm_num))
  refine h2.congr' ?_
  filter_upwards [Filter.eventually_ge_atTop (1 : ℝ)] with r hr
  exact (target_loud 10 r hr).symm

theorem clamp_target_loud (mg ratio : ℝ) (h : 1 ≤ ratio) (hmg : 1 ≤ mg) :
    clamp_target mg (target_of_ratio Real.rpow mg ratio) = mg := by
  rw [clamp_target_eq, min_eq_right (target_loud_ge mg ratio h hmg)]
  exact max_eq_right (le_trans (by norm_num) hmg)

/-- Evaluation of `powf(7.59375, 0.6)`: `7.59375 = 1.5^5`, so the power is
`1.5^3`. -/
theorem rpow_example : (7.59375 : ℝ) ^ ((3 : ℝ) / 5) = 3.375 := by
  have h5 : (7.59375 : ℝ) = (1.5 : ℝ) ^ ((5 : ℕ) : ℝ) := by
    rw [Real.rpow_natCast]; norm_num
  rw [h5, ← Real.rpow_mul (by norm_num)]
  have h3 : ((5 : ℕ) : ℝ) * ((3 : ℝ) / 5) = ((3 : ℕ) : ℝ) := by norm_num
  rw [h3, Real.rpow_natCast]
  norm_num

theorem clamp_target_quiet (mg ratio : ℝ) (hmg : 1 ≤ mg) (h0 : -1 ≤ ratio) (h1 : ratio < 1) :
    clamp_target mg (target_of_ratio Real.rpow mg ratio) = max (ratio ^ 4) 0.03 := by
  have h4 : ratio ^ 4 ≤ 1 := by
    have : ratio ^ 2 ≤ 1 := by nlinarith
    nlinarith [sq_nonneg (ratio ^ 2)]
  rw [target_quiet mg ratio h1, clamp_target_eq, min_eq_left (le_trans h4 hmg), max_comm]

/-! ## Controllers along a run from `init_bands` -/

theorem agc_ratio_nonneg (b : band_agc_t K) (s : K)
    (h0 : 0 ≤ b.alpha) (h1 : b.alpha ≤ 1) (he : 0 ≤ b.env) (ht : 0 < b.threshold) :
    0 ≤ agc_ratio b s :=
  div_nonneg (agc_env_nonneg b s h0 h1 he) (le_of_lt ht)

/-- Every controller of a state reached from `init_bands` has the constants
set by `init_bands` and a non-negative envelope. -/
theorem reachable_ctrl (powf : K → K → K) (st0 : State K) (xs : List K) (i : Fin 3) :
    ((process_stream powf (init_bands st0) xs).2.band_ctrl i).alpha = 0.995 ∧
      ((process_stream powf (init_bands st0) xs).2.band_ctrl i).threshold = 0.1 ∧
      ((process_stream powf (init_bands st0) xs).2.band_ctrl i).max_gain = 10 ∧
      0 ≤ ((process_stream powf (init_bands st0) xs).2.band_ctrl i).env := by
  have key := process_stream_invariant powf
    (fun st => ∀ i, (st.band_ctrl i).alpha = 0.995 ∧ (st.band_ctrl i).threshold = 0.1 ∧
      (st.band_ctrl i).max_gain = 10 ∧ 0 ≤ (st.band_ctrl i).env)
    (fun st x h i => by
      obtain ⟨ha, ht, hm⟩ := process_sample_ctrl_fixed powf st x i
      refine ⟨ha.trans (h i).1, ht.trans (h i).2.1, hm.trans (h i).2.2.1, ?_⟩
      rw [process_sample_ctrl, apply_band_agc_eq]
      exact agc_env_nonneg _ _ (by rw [(h i).1]; norm_num) (by rw [(h i).1]; norm_num)
        (h i).2.2.2)
    xs (init_bands st0) (by intro i; rw [init_bands_ctrl]; norm_num)
  exact key i

/-- The clamped target of a controller with `max_gain ≥ 1` and a non-negative
ratio below 1. -/
theorem agc_clamped_below (b : band_agc_t ℝ) (s : ℝ) (hmax : 1 ≤ b.max_gain)
    (h0 : 0 ≤ agc_ratio b s) (h1 : agc_ratio b s < 1) :
    agc_clamped Real.rpow b s = max (agc_ratio b s ^ 4) 0.03 := by
  rw [agc_clamped_eq_clamp]
  exact clamp_target_quiet _ _ hmax (le_trans (by norm_num) h0) h1

end Lemmas

/-! # The claims -/

section Claims

variable {K : Type} [LinearOrderedField K]

/-- C1 (gain invariant).  For any `powf`, any controller state with
`max_gain ≥ 0.03`, `threshold > 0` and `0.03 ≤ gain ≤ max_gain`, and any
sample, `apply_band_agc` leaves `0.03 ≤ gain ≤ max_gain`; and from the state
built by `init_bands`, after any finite sequence of `process_sample` calls
every band's gain lies in `[0.03, 10]`. -/
theorem gain_invariant (powf : K → K → K) (b : band_agc_t K) (sample : K)
    (hmax : 0.03 ≤ b.max_gain) (_hthr : 0 < b.threshold)
    (hlo : 0.03 ≤ b.gain) (hhi : b.gain ≤ b.max_gain) :
    (0.03 ≤ (apply_band_agc powf b sample).2.gain ∧
      (apply_band_agc powf b sample).2.gain ≤ b.max_gain ∧
      (apply_band_agc powf b sample).2.max_gain = b.max_gain) ∧
    ∀ (st0 : State K) (xs : List K) (i : Fin 3),
      0.03 ≤ ((process_stream powf (init_bands st0) xs).2.band_ctrl i).gain ∧
        ((process_stream powf (init_bands st0) xs).2.band_ctrl i).gain ≤ 10.0 := by
  refine ⟨⟨(agc_gain_bounds powf b sample hmax hlo hhi).1,
    (agc_gain_bounds powf b sample hmax hlo hhi).2, rfl⟩, ?_⟩
  intro st0 xs i
  have key := process_stream_invariant powf
    (fun st => ∀ i, (st.band_ctrl i).max_gain = 10.0 ∧
      0.03 ≤ (st.band_ctrl i).gain ∧ (st.band_ctrl i).gain ≤ 10.0)
    (fun st x h => process_sample_gain_range powf st x h) xs (init_bands st0)
    (by intro i; rw [init_bands_ctrl]; norm_num)
  exact (key i).2

/-- Witness for C1: the controller built by `init_bands`, over the reals with
the real power function, fed the sample `0.5`. -/
theorem gain_invariant_witness :
    ((0.03 : ℝ) ≤ 10.0 ∧ (0 : ℝ) < 0.1 ∧ (0.03 : ℝ) ≤ 1.0 ∧ (1.0 : ℝ) ≤ 10.0) ∧
    ((0.03 ≤ (apply_band_agc Real.rpow ⟨0.995, 0.0, 0.1, 10.0, 1.0⟩ 0.5).2.gain ∧
      (apply_band_agc Real.rpow ⟨0.995, 0.0, 0.1, 10.0, 1.0⟩ 0.5).2.gain
        ≤ (⟨0.995, 0.0, 0.1, 10.0, 1.0⟩ : band_agc_t ℝ).max_gain ∧
      (apply_band_agc Real.rpow ⟨0.995, 0.0, 0.1, 10.0, 1.0⟩ 0.5).2.max_gain
        = (⟨0.995, 0.0, 0.1, 10.0, 1.0⟩ : band_agc_t ℝ).max_gain) ∧
    ∀ (st0 : State ℝ) (xs : List ℝ) (i : Fin 3),
      0.03 ≤ ((process_stream Real.rpow (init_bands st0) xs).2.band_ctrl i).gain ∧
        ((process_stream Real.rpow (init_bands st0) xs).2.band_ctrl i).gain ≤ 10.0) :=
  ⟨by norm_num,
   gain_invariant Real.rpow ⟨0.995, 0.0, 0.1, 10.0, 1.0⟩ 0.5
    (by norm_num) (by norm_num) (by norm_num) (by norm_num)⟩

/-- C4 (biquad step).  `biquad_process` returns
`b0*x + b1*x1 + b2*x2 - a1*y1 - a2*y2` computed from the state before the
call, shifts the delay registers (`x2 ← x1`, `x1 ← x`, `y2 ← y1`, `y1 ← y`)
and leaves the five coefficients unchanged. -/
theorem biquad_process_step (q : biquad_t K) (x : K) :
    (biquad_process q x).1
        = q.b0 * x + q.b1 * q.x1 + q.b2 * q.x2 - q.a1 * q.y1 - q.a2 * q.y2 ∧
      (biquad_process q x).2.x2 = q.x1 ∧
      (biquad_process q x).2.x1 = x ∧
      (biquad_process q x).2.y2 = q.y1 ∧
      (biquad_process q x).2.y1 = (biquad_process q x).1 ∧
      (biquad_process q x).2.b0 = q.b0 ∧
      (biquad_process q x).2.b1 = q.b1 ∧
      (biquad_process q x).2.b2 = q.b2 ∧
      (biquad_process q x).2.a1 = q.a1 ∧
      (biquad_process q x).2.a2 = q.a2 := by
  simp [biquad_process]

/-- C5 (AGC step), over the reals with the real power function.  With
`env' = alpha*env + (1-alpha)*|s|`, `ratio = env'/threshold`,
`target = 1 + (max_gain-1)*ratio^0.6` if `ratio ≥ 1` and `ratio^4` otherwise,
`clamped` the target clamped into `[0.03, max_gain]`, and `c = 0.03` when
`clamped` exceeds the old gain and `0.001` otherwise, `apply_band_agc` stores
`env'` and `gain' = gain + c*(clamped - gain)` and returns `s * gain'`. -/
theorem apply_band_agc_step (b : band_agc_t ℝ) (s : ℝ) (_hthr : 0 < b.threshold) :
    let env' := b.alpha * b.env + (1 - b.alpha) * |s|
    let ratio := env' / b.threshold
    let target := if ratio ≥ 1 then 1 + (b.max_gain - 1) * ratio ^ (0.6 : ℝ) else ratio ^ 4
    let clamped := max 0.03 (min target b.max_gain)
    let c := if clamped > b.gain then (0.03 : ℝ) else 0.001
    let gain' := b.gain + c * (clamped - b.gain)
    apply_band_agc Real.rpow b s = (s * gain', { b with env := env', gain := gain' }) := by
  intro env' ratio target clamped c gain'
  have he : agc_env b s = env' := by simp only [agc_env, env']; norm_num
  have hr : agc_ratio b s = ratio := by simp only [agc_ratio, he, ratio]
  have ht : agc_target Real.rpow b s = target := by
    simp only [agc_target, hr, rpow_four, target]
    norm_num
  have hc : agc_clamped Real.rpow b s = clamped := by
    rw [agc_clamped_eq, ht]
  have hg : agc_gain Real.rpow b s = gain' := by
    simp only [agc_gain, hc, gain', c]
  rw [apply_band_agc_eq, he, hg]

/-- Witness for C5: a quiet step (`ratio = 0.9`) of a controller with the
constants of `init_bands`. -/
theorem apply_band_agc_step_witness :
    (0 : ℝ) < 0.1 ∧
    apply_band_agc Real.rpow ⟨0.995, 0.09, 0.1, 10.0, 1.0⟩ 0.09
      = (0.09 * 0.9996561, ⟨0.995, 0.09, 0.1, 10.0, 0.9996561⟩) := by
  refine ⟨by norm_num, ?_⟩
  have h := apply_band_agc_step ⟨0.995, 0.09, 0.1, 10.0, 1.0⟩ 0.09 (by norm_num)
  have habs : |(0.09 : ℝ)| = 0.09 := abs_of_nonneg (by norm_num)
  simp only [habs] at h
  norm_num at h ⊢
  exact h

/-- C6 (pipeline composition).  With `s b` the post-gain sample of band `b`,
i.e. `apply_band_agc` of `band_ctrl[b]` on `x` run through `bands[2b]` then
`bands[2b+1]`, `process_sample` returns `(s 0 + s 1 + s 2)/3` clipped to
`[-1, 1]`; band `b`'s sample and new state are `band_chain` of `x` and band
`b`'s own prior state; and the loop body for band `b` modifies no stage and
no controller of another band. -/
theorem process_sample_composition (powf : K → K → K) (st : State K) (x : K) :
    let s := fun b : Fin 3 => (apply_band_agc powf (st.band_ctrl b)
      (biquad_process (st.bands (stage1 b)) (biquad_process (st.bands (stage0 b)) x).1).1).1
    (process_sample powf st x).1 = max (-1) (min ((s 0 + s 1 + s 2) / 3) 1) ∧
    (∀ b : Fin 3,
      (s b, (process_sample powf st x).2.bands (stage0 b),
        (process_sample powf st x).2.bands (stage1 b),
        (process_sample powf st x).2.band_ctrl b)
      = band_chain powf (st.bands (stage0 b)) (st.bands (stage1 b)) (st.band_ctrl b) x) ∧
    (∀ (acc : State K × (Fin 3 → K)) (b : Fin 3),
      (∀ j, j ≠ stage0 b → j ≠ stage1 b →
        (filter_band powf x acc b).1.bands j = acc.1.bands j) ∧
      (∀ j, j ≠ b → (filter_band powf x acc b).1.band_ctrl j = acc.1.band_ctrl j)) := by
  intro s
  refine ⟨process_sample_out powf st x, ?_, ?_⟩
  · intro b
    rw [process_sample_stage0, process_sample_stage1, process_sample_ctrl]
    rfl
  · intro acc b
    constructor
    · intro j h0 h1
      simp [filter_band, Function.update, h0, h1]
    · intro j hj
      simp [filter_band, Function.update, hj]

/-- Witness for C6: the loop body for band 0, run on the state built by
`init_bands`, leaves `bands[2]` (first stage of band 1) unchanged. -/
theorem process_sample_composition_witness :
    ((2 : Fin 6) ≠ stage0 0 ∧ (2 : Fin 6) ≠ stage1 0) ∧
    (filter_band Real.rpow 0.5 (init_bands zero_state, fun _ => 0) 0).1.bands 2
      = (init_bands (zero_state : State ℝ)).bands 2 :=
  ⟨⟨by decide, by decide⟩,
   ((process_sample_composition Real.rpow (init_bands zero_state) 0.5).2.2
      (init_bands zero_state, fun _ => 0) 0).1 2 (by decide) (by decide)⟩

/-- C3 (silence in, silence out).  From the state built by `init_bands`, for
every `n`, feeding `n` zero samples to `process_sample` returns `n` outputs
that are all exactly `0`, leaves every delay register and every envelope at
`0`, and the main loop writes `n` zero integers. -/
theorem silence_in_silence_out [FloorRing K] (powf : K → K → K) (st0 : State K) (n : Nat) :
    (process_stream powf (init_bands st0) (List.replicate n 0)).1 = List.replicate n 0 ∧
    (∀ i, delays_zero ((process_stream powf (init_bands st0) (List.replicate n 0)).2.bands i)) ∧
    (∀ i, ((process_stream powf (init_bands st0) (List.replicate n 0)).2.band_ctrl i).env = 0) ∧
    (main_loop powf (init_bands st0) (List.replicate n 0)).1 = List.replicate n 0 := by
  have hinit := init_bands_silent st0
  have hout := process_stream_zero powf n (init_bands st0) hinit
  have hst := process_stream_invariant_on powf
    (fun st => (∀ i, delays_zero (st.bands i)) ∧ ∀ i, (st.band_ctrl i).env = 0) (fun x => x = 0)
    (fun st x hx h => by subst hx; exact (process_sample_zero powf st h).2)
    (List.replicate n 0) (fun x hx => List.eq_of_mem_replicate hx) (init_bands st0) hinit
  exact ⟨hout, hst.1, hst.2, main_loop_zero powf st0 n⟩

/-- C7 (biquad linearity).  For two stages with the same coefficients,
running `biquad_process` on the stage whose delay registers are
`a*q + c*r` with input `a*x + c*u` returns `a*y_q + c*y_r` and leaves the
delay registers equal to the same combination of the two resulting states;
the same holds for runs over equally long input sequences; hence from a zero
delay state the response to `a*xs + c*us` is `a*` the response to `xs` plus
`c*` the response to `us`. -/
theorem biquad_linear (a c : K) (q r : biquad_t K) (hc : same_coeffs q r) (x u : K) :
    ((biquad_process (biquad_comb a c q r) (a * x + c * u)).1
        = a * (biquad_process q x).1 + c * (biquad_process r u).1 ∧
      (biquad_process (biquad_comb a c q r) (a * x + c * u)).2
        = biquad_comb a c (biquad_process q x).2 (biquad_process r u).2) ∧
    (∀ xs us : List K, xs.length = us.length →
      (biquad_run (biquad_comb a c q r) (List.zipWith (fun x u => a * x + c * u) xs us)).1
          = List.zipWith (fun y v => a * y + c * v) (biquad_run q xs).1 (biquad_run r us).1 ∧
        (biquad_run (biquad_comb a c q r) (List.zipWith (fun x u => a * x + c * u) xs us)).2
          = biquad_comb a c (biquad_run q xs).2 (biquad_run r us).2) ∧
    (delays_zero q → ∀ xs us : List K, xs.length = us.length →
      (biquad_run q (List.zipWith (fun x u => a * x + c * u) xs us)).1
        = List.zipWith (fun y v => a * y + c * v) (biquad_run q xs).1 (biquad_run q us).1) := by
  refine ⟨biquad_process_comb a c q r hc x u, fun xs us hl => biquad_run_comb a c xs us q r hc hl, ?_⟩
  intro hz xs us hl
  have h := (biquad_run_comb a c xs us q q ⟨rfl, rfl, rfl, rfl, rfl⟩ hl).1
  rwa [biquad_comb_zero a c q hz] at h

/-- Witness for C7: two band-pass stages with different delay registers over
the rationals, `a = 2`, `c = 3`, inputs `1` and `-1`. -/
theorem biquad_linear_witness :
    same_coeffs (⟨0.2066, 0, -0.2066, 0, 0.5868, 1, 2, 3, 4⟩ : biquad_t ℚ)
        ⟨0.2066, 0, -0.2066, 0, 0.5868, 5, 6, 7, 8⟩ ∧
      (biquad_process (biquad_comb 2 3 (⟨0.2066, 0, -0.2066, 0, 0.5868, 1, 2, 3, 4⟩ : biquad_t ℚ)
          ⟨0.2066, 0, -0.2066, 0, 0.5868, 5, 6, 7, 8⟩) (2 * 1 + 3 * (-1))).1
        = 2 * (biquad_process (⟨0.2066, 0, -0.2066, 0, 0.5868, 1, 2, 3, 4⟩ : biquad_t ℚ) 1).1
          + 3 * (biquad_process (⟨0.2066, 0, -0.2066, 0, 0.5868, 5, 6, 7, 8⟩ : biquad_t ℚ) (-1)).1 :=
  ⟨⟨rfl, rfl, rfl, rfl, rfl⟩,
   (biquad_linear 2 3 ⟨0.2066, 0, -0.2066, 0, 0.5868, 1, 2, 3, 4⟩
      ⟨0.2066, 0, -0.2066, 0, 0.5868, 5, 6, 7, 8⟩ ⟨rfl, rfl, rfl, rfl, rfl⟩ 1 (-1)).1.1⟩

/-- Counterexample to C9 as stated: a controller with the constants of
`init_bands`, envelope `0.09` and gain `0.5`, fed the sample `0.09`.  The
updated envelope is `0.09`, below the threshold (`ratio = 0.9 < 1`), the
target `0.9^4 = 0.6561` is not clamped and exceeds the gain, so the gain
rises to `0.504683` at the attack rate instead of decaying toward `0.03`. -/
theorem release_convergence_counterexample :
    ((0.1 : ℝ) = 0.1 ∧ (10 : ℝ) = 10 ∧ (0.03 : ℝ) ≤ 0.5 ∧ (0.5 : ℝ) ≤ 10 ∧
      agc_steps_satisfy Real.rpow (fun b s => agc_ratio b s < 1)
        ⟨0.995, 0.09, 0.1, 10, 0.5⟩ [0.09]) ∧
    (agc_run Real.rpow ⟨0.995, 0.09, 0.1, 10, 0.5⟩ [0.09]).gain = 0.504683 ∧
    ¬ ((agc_run Real.rpow ⟨0.995, 0.09, 0.1, 10, 0.5⟩ [0.09]).gain - 0.03
        = (1 - 0.001) * ((⟨0.995, 0.09, 0.1, 10, 0.5⟩ : band_agc_t ℝ).gain - 0.03)) ∧
    ¬ ((agc_run Real.rpow ⟨0.995, 0.09, 0.1, 10, 0.5⟩ [0.09]).gain
        ≤ (⟨0.995, 0.09, 0.1, 10, 0.5⟩ : band_agc_t ℝ).gain) := by
  have habs : |(0.09 : ℝ)| = 0.09 := abs_of_nonneg (by norm_num)
  have hr : agc_ratio (⟨0.995, 0.09, 0.1, 10, 0.5⟩ : band_agc_t ℝ) 0.09 = 0.9 := by
    simp only [agc_ratio, agc_env, habs]; norm_num
  have ht : agc_target Real.rpow (⟨0.995, 0.09, 0.1, 10, 0.5⟩ : band_agc_t ℝ) 0.09 = 0.6561 := by
    simp only [agc_target, hr, rpow_four]; norm_num
  have hc : agc_clamped Real.rpow (⟨0.995, 0.09, 0.1, 10, 0.5⟩ : band_agc_t ℝ) 0.09 = 0.6561 := by
    rw [agc_clamped_eq, ht]; norm_num
  have hg : (agc_run Real.rpow ⟨0.995, 0.09, 0.1, 10, 0.5⟩ [0.09]).gain = 0.504683 := by
    simp only [agc_run, apply_band_agc_eq, agc_gain, hc]; norm_num
  refine ⟨⟨rfl, rfl, by norm_num, by norm_num, ?_⟩, hg, ?_, ?_⟩
  · simp only [agc_steps_satisfy, hr]; norm_num
  · rw [hg]; norm_num
  · rw [hg]; norm_num

/-- C9 (release convergence, amended), over the reals with the real power
function.  For a controller with `threshold = 0.1`, `max_gain = 10` and gain
in `[0.03, 10]`, if at each of `n` consecutive calls the updated envelope
satisfies `ratio^4 ≤ 0.03` (so that the clamped target is the lower bound
`0.03`), then each call gives `gain' - 0.03 = (1 - 0.001) * (gain - 0.03)`,
after the `n` calls `gain_n - 0.03 = 0.999^n * (gain_0 - 0.03)`, and the gain
never increases. -/
theorem release_convergence (b : band_agc_t ℝ) (ss : List ℝ)
    (hthr : b.threshold = 0.1) (hmax : b.max_gain = 10)
    (hlo : 0.03 ≤ b.gain) (hhi : b.gain ≤ 10)
    (hquiet : agc_steps_satisfy Real.rpow (fun b s => agc_ratio b s ^ 4 ≤ 0.03) b ss) :
    (∀ k, k < ss.length →
      (agc_run Real.rpow b (ss.take (k + 1))).gain - 0.03
        = (1 - 0.001) * ((agc_run Real.rpow b (ss.take k)).gain - 0.03)) ∧
    (agc_run Real.rpow b ss).gain - 0.03 = 0.999 ^ ss.length * (b.gain - 0.03) ∧
    (∀ k, (agc_run Real.rpow b (ss.take (k + 1))).gain
        ≤ (agc_run Real.rpow b (ss.take k)).gain) := by
  have hb : b.threshold = 0.1 ∧ b.max_gain = 10 ∧ 0.03 ≤ b.gain ∧ b.gain ≤ 10 :=
    ⟨hthr, hmax, hlo, hhi⟩
  have hinv := fun k => agc_run_invariant Real.rpow _ agc_fixed_inv (ss.take k) b hb
  have hstep : ∀ k, k < ss.length →
      (agc_run Real.rpow b (ss.take (k + 1))).gain - 0.03
        = (1 - 0.001) * ((agc_run Real.rpow b (ss.take k)).gain - 0.03) := by
    intro k hk
    rw [agc_run_take_succ Real.rpow ss b k hk, apply_band_agc_eq]
    exact agc_gain_quiet _ _ (agc_steps_satisfy_at Real.rpow _ ss b hquiet k hk) (hinv k).2.2.1
  refine ⟨hstep, ?_, ?_⟩
  · have h := agc_run_geometric Real.rpow (fun b s => agc_ratio b s ^ 4 ≤ 0.03)
      (fun b => b.threshold = 0.1 ∧ b.max_gain = 10 ∧ 0.03 ≤ b.gain ∧ b.gain ≤ 10)
      (fun b => b.gain - 0.03) 0.999 agc_fixed_inv
      (fun b s hI hP => by
        rw [apply_band_agc_eq]
        have := agc_gain_quiet b s hP hI.2.2.1
        simp only at this ⊢
        rw [this]; norm_num)
      ss b hb hquiet
    exact h
  · intro k
    by_cases hk : k < ss.length
    · have h1 := hstep k hk
      have h2 := (hinv k).2.2.1
      norm_num at h1 h2
      linarith
    · have hk' : ss.length ≤ k := not_lt.mp hk
      rw [List.take_of_length_le hk', List.take_of_length_le (Nat.le_succ_of_le hk')]

/-- Witness for C9: two quiet calls (`ratio = 0.1`, then `0.0995`) from gain `1`. -/
theorem release_convergence_witness :
    ((0.1 : ℝ) = 0.1 ∧ (10 : ℝ) = 10 ∧ (0.03 : ℝ) ≤ 1 ∧ (1 : ℝ) ≤ 10 ∧
      agc_steps_satisfy Real.rpow (fun b s => agc_ratio b s ^ 4 ≤ 0.03)
        ⟨0.995, 0.01, 0.1, 10, 1⟩ [0.01, 0]) ∧
    (agc_run Real.rpow ⟨0.995, 0.01, 0.1, 10, 1⟩ [0.01, 0]).gain - 0.03
      = 0.999 ^ ([0.01, 0] : List ℝ).length * ((⟨0.995, 0.01, 0.1, 10, 1⟩ : band_agc_t ℝ).gain - 0.03) := by
  have habs : |(0.01 : ℝ)| = 0.01 := abs_of_nonneg (by norm_num)
  have hl : agc_steps_satisfy Real.rpow (fun b s => agc_ratio b s ^ 4 ≤ 0.03)
      ⟨0.995, 0.01, 0.1, 10, 1⟩ [0.01, 0] := by
    simp only [agc_steps_satisfy, apply_band_agc_eq, agc_ratio, agc_env, habs, abs_zero]
    norm_num
  exact ⟨⟨rfl, rfl, by norm_num, by norm_num, hl⟩,
    (release_convergence ⟨0.995, 0.01, 0.1, 10, 1⟩ [0.01, 0] rfl rfl
      (by norm_num) (by norm_num) hl).2.1⟩

/-- C10 (attack convergence), over the reals with the real power function.
For a controller with `threshold = 0.1`, `max_gain = 10` and gain in
`[0.03, 10]`, if at each of `n` consecutive calls the updated envelope is at
or above the threshold (`ratio ≥ 1`), then each call gives
`10 - gain' = (1 - 0.03) * (10 - gain)`, after the `n` calls
`10 - gain_n = 0.97^n * (10 - gain_0)`, and the gain never decreases. -/
theorem attack_convergence (b : band_agc_t ℝ) (ss : List ℝ)
    (hthr : b.threshold = 0.1) (hmax : b.max_gain = 10)
    (hlo : 0.03 ≤ b.gain) (hhi : b.gain ≤ 10)
    (hloud : agc_steps_satisfy Real.rpow (fun b s => agc_ratio b s ≥ 1) b ss) :
    (∀ k, k < ss.length →
      10 - (agc_run Real.rpow b (ss.take (k + 1))).gain
        = (1 - 0.03) * (10 - (agc_run Real.rpow b (ss.take k)).gain)) ∧
    10 - (agc_run Real.rpow b ss).gain = 0.97 ^ ss.length * (10 - b.gain) ∧
    (∀ k, (agc_run Real.rpow b (ss.take k)).gain
        ≤ (agc_run Real.rpow b (ss.take (k + 1))).gain) := by
  have hb : b.threshold = 0.1 ∧ b.max_gain = 10 ∧ 0.03 ≤ b.gain ∧ b.gain ≤ 10 :=
    ⟨hthr, hmax, hlo, hhi⟩
  have hinv := fun k => agc_run_invariant Real.rpow _ agc_fixed_inv (ss.take k) b hb
  have hstep : ∀ k, k < ss.length →
      10 - (agc_run Real.rpow b (ss.take (k + 1))).gain
        = (1 - 0.03) * (10 - (agc_run Real.rpow b (ss.take k)).gain) := by
    intro k hk
    rw [agc_run_take_succ Real.rpow ss b k hk, apply_band_agc_eq]
    exact agc_gain_loud _ _ (agc_steps_satisfy_at Real.rpow _ ss b hloud k hk)
      (hinv k).2.1 (hinv k).2.2.2
  refine ⟨hstep, ?_, ?_⟩
  · have h := agc_run_geometric Real.rpow (fun b s => agc_ratio b s ≥ 1)
      (fun b => b.threshold = 0.1 ∧ b.max_gain = 10 ∧ 0.03 ≤ b.gain ∧ b.gain ≤ 10)
      (fun b => 10 - b.gain) 0.97 agc_fixed_inv
      (fun b s hI hP => by
        rw [apply_band_agc_eq]
        have := agc_gain_loud b s hP hI.2.1 hI.2.2.2
        simp only at this ⊢
        rw [this]; norm_num)
      ss b hb hloud
    exact h
  · intro k
    by_cases hk : k < ss.length
    · have h1 := hstep k hk
      have h2 := (hinv k).2.2.2
      norm_num at h1
      linarith
    · have hk' : ss.length ≤ k := not_lt.mp hk
      rw [List.take_of_length_le hk', List.take_of_length_le (Nat.le_succ_of_le hk')]

/-- Witness for C10: two loud calls (`ratio = 2`) from gain `1`. -/
theorem attack_convergence_witness :
    ((0.1 : ℝ) = 0.1 ∧ (10 : ℝ) = 10 ∧ (0.03 : ℝ) ≤ 1 ∧ (1 : ℝ) ≤ 10 ∧
      agc_steps_satisfy Real.rpow (fun b s => agc_ratio b s ≥ 1)
        ⟨0.995, 0.2, 0.1, 10, 1⟩ [0.2, 0.2]) ∧
    10 - (agc_run Real.rpow ⟨0.995, 0.2, 0.1, 10, 1⟩ [0.2, 0.2]).gain
      = 0.97 ^ ([0.2, 0.2] : List ℝ).length * (10 - (⟨0.995, 0.2, 0.1, 10, 1⟩ : band_agc_t ℝ).gain) := by
  have habs : |(0.2 : ℝ)| = 0.2 := abs_of_nonneg (by norm_num)
  have hl : agc_steps_satisfy Real.rpow (fun b s => agc_ratio b s ≥ 1)
      ⟨0.995, 0.2, 0.1, 10, 1⟩ [0.2, 0.2] := by
    simp only [agc_steps_satisfy, apply_band_agc_eq, agc_ratio, agc_env, habs]
    norm_num
  exact ⟨⟨rfl, rfl, by norm_num, by norm_num, hl⟩,
    (attack_convergence ⟨0.995, 0.2, 0.1, 10, 1⟩ [0.2, 0.2] rfl rfl
      (by norm_num) (by norm_num) hl).2.1⟩

/-- Counterexample to C8 as stated: with three positional arguments
(`argc = 4`) `main` prints no usage message; it opens `argv[1]` and
`argv[2]`, processes the input and exits with code 0. -/
theorem usage_error_counterexample :
    (["vad", "in.raw", "out.raw", "extra"] : List String).length ≠ 3 ∧
    main Real.rpow ["vad", "in.raw", "out.raw", "extra"]
        ⟨fun p => if p = "in.raw" then some [0] else none, fun _ => true⟩
      = { exit_code := 0
          stdout := ["Processing done: in.raw -> out.raw\n"]
          perror := []
          fopen_calls := [("in.raw", "rb"), ("out.raw", "wb")]
          written := [0] } := by
  refine ⟨by decide, ?_⟩
  rw [main_success Real.rpow _ _ [0] (by decide) (by simp) rfl]
  have h := main_loop_zero Real.rpow (zero_state : State ℝ) 1
  simp only [List.replicate] at h
  rw [h]
  simp

/-- C8 (usage error, amended).  For every invocation with fewer than two
positional arguments (`argc < 3`) `main` prints the usage message and exits
with code 1 without opening any file or writing any sample; arguments after
the second positional one are ignored. -/
theorem usage_error [FloorRing K] (powf : K → K → K) (argv : List String) (fs : Files)
    (h : argv.length < 3) :
    main powf argv fs =
        { exit_code := 1
          stdout := ["Usage: " ++ argv.getD 0 "(null)" ++ " input.raw output.raw\n"]
          perror := [], fopen_calls := [], written := [] } ∧
    ∀ (a0 a1 a2 : String) (extra : List String),
      main powf (a0 :: a1 :: a2 :: extra) fs = main powf [a0, a1, a2] fs := by
  constructor
  · simp only [main, h, if_true]
  · intro a0 a1 a2 extra
    simp [main]

/-- Witness for C8: a single positional argument. -/
theorem usage_error_witness :
    (["vad", "in.raw"] : List String).length < 3 ∧
    main Real.rpow ["vad", "in.raw"] ⟨fun _ => some [0], fun _ => true⟩
      = { exit_code := 1
          stdout := ["Usage: vad input.raw output.raw\n"]
          perror := [], fopen_calls := [], written := [] } := by
  refine ⟨by decide, ?_⟩
  rw [(usage_error Real.rpow ["vad", "in.raw"] ⟨fun _ => some [0], fun _ => true⟩ (by decide)).1]
  simp

/-- C13 (construction).  From any prior state `init_bands` yields the state
whose six stages have zero delay registers, stages 0 and 1 (band 0) the
low-pass coefficients `b0 = b2 = 0.2929`, `b1 = 0.5858`, `a1 = 0`,
`a2 = 0.1716`, stages 2 to 5 (bands 1 and 2) the band-pass coefficients
`b0 = 0.2066`, `b1 = 0`, `b2 = -0.2066`, `a1 = 0`, `a2 = 0.5868`, and whose
three controllers have `alpha = 0.995`, `env = 0`, `threshold = 0.1`,
`max_gain = 10`, `gain = 1`; the result does not depend on the prior state,
so calling `init_bands` again after any amount of processing restores it. -/
theorem init_bands_construction (st0 : State K) :
    (init_bands st0).bands 0 = ⟨0.2929, 0.5858, 0.2929, 0, 0.1716, 0, 0, 0, 0⟩ ∧
    (init_bands st0).bands 1 = ⟨0.2929, 0.5858, 0.2929, 0, 0.1716, 0, 0, 0, 0⟩ ∧
    (init_bands st0).bands 2 = ⟨0.2066, 0, -0.2066, 0, 0.5868, 0, 0, 0, 0⟩ ∧
    (init_bands st0).bands 3 = ⟨0.2066, 0, -0.2066, 0, 0.5868, 0, 0, 0, 0⟩ ∧
    (init_bands st0).bands 4 = ⟨0.2066, 0, -0.2066, 0, 0.5868, 0, 0, 0, 0⟩ ∧
    (init_bands st0).bands 5 = ⟨0.2066, 0, -0.2066, 0, 0.5868, 0, 0, 0, 0⟩ ∧
    (∀ i, delays_zero ((init_bands st0).bands i)) ∧
    (∀ b, (init_bands st0).band_ctrl b = ⟨0.995, 0, 0.1, 10, 1⟩) ∧
    (∀ st1 : State K, init_bands st1 = init_bands st0) ∧
    (∀ (powf : K → K → K) (xs : List K),
      init_bands (process_stream powf (init_bands st0) xs).2 = init_bands st0) := by
  refine ⟨?_, ?_, ?_, ?_, ?_, ?_, (init_bands_silent st0).1, ?_,
    fun st1 => init_bands_const st0 st1, fun _ _ => init_bands_const st0 _⟩
  · rw [init_bands_low st0 0 (by decide)]; norm_num [biquad_lit]
  · rw [init_bands_low st0 1 (by decide)]; norm_num [biquad_lit]
  · rw [init_bands_high st0 2 (by decide)]; norm_num [biquad_lit]
  · rw [init_bands_high st0 3 (by decide)]; norm_num [biquad_lit]
  · rw [init_bands_high st0 4 (by decide)]; norm_num [biquad_lit]
  · rw [init_bands_high st0 5 (by decide)]; norm_num [biquad_lit]
  · intro b; rw [init_bands_ctrl]; norm_num

/-- C14 (envelope invariant).  For every controller state with
`0 ≤ alpha ≤ 1` and `env ≥ 0` and every sample, `apply_band_agc` leaves
`env ≥ 0`; and from the state built by `init_bands`, every band's envelope is
non-negative after any sequence of `process_sample` calls. -/
theorem envelope_invariant (powf : K → K → K) (b : band_agc_t K) (sample : K)
    (h0 : 0 ≤ b.alpha) (h1 : b.alpha ≤ 1) (he : 0 ≤ b.env) :
    0 ≤ (apply_band_agc powf b sample).2.env ∧
    ∀ (st0 : State K) (xs : List K) (i : Fin 3),
      0 ≤ ((process_stream powf (init_bands st0) xs).2.band_ctrl i).env := by
  refine ⟨agc_env_nonneg b sample h0 h1 he, ?_⟩
  intro st0 xs i
  have key := process_stream_invariant powf
    (fun st => ∀ i, (st.band_ctrl i).alpha = 0.995 ∧ 0 ≤ (st.band_ctrl i).env)
    (fun st x h i => by
      refine ⟨((process_sample_ctrl_fixed powf st x i).1).trans (h i).1, ?_⟩
      rw [process_sample_ctrl, apply_band_agc_eq]
      exact agc_env_nonneg _ _ (by rw [(h i).1]; norm_num) (by rw [(h i).1]; norm_num) (h i).2)
    xs (init_bands st0) (by intro i; rw [init_bands_ctrl]; norm_num)
  exact (key i).2

/-- Witness for C14: a controller with envelope `0.2` fed the sample `-0.5`. -/
theorem envelope_invariant_witness :
    ((0 : ℝ) ≤ 0.995 ∧ (0.995 : ℝ) ≤ 1 ∧ (0 : ℝ) ≤ 0.2) ∧
    0 ≤ (apply_band_agc Real.rpow ⟨0.995, 0.2, 0.1, 10, 1⟩ (-0.5)).2.env :=
  ⟨by norm_num,
   (envelope_invariant Real.rpow ⟨0.995, 0.2, 0.1, 10, 1⟩ (-0.5)
      (by norm_num) (by norm_num) (by norm_num)).1⟩

/-- C16 (fixed parameters, guarded division).  In every state reached from
`init_bands` by any number of `process_sample` calls every band's threshold
is `0.1` (positive, hence non-zero, so `env / threshold` never divides by
zero), `alpha` is `0.995`, `max_gain` is `10`, and the coefficients of all six
stages are those `init_bands` set. -/
theorem fixed_parameters (powf : K → K → K) (st0 : State K) (xs : List K) :
    (∀ i : Fin 3,
      ((process_stream powf (init_bands st0) xs).2.band_ctrl i).threshold = 0.1 ∧
      0 < ((process_stream powf (init_bands st0) xs).2.band_ctrl i).threshold ∧
      ((process_stream powf (init_bands st0) xs).2.band_ctrl i).threshold ≠ 0 ∧
      ((process_stream powf (init_bands st0) xs).2.band_ctrl i).alpha = 0.995 ∧
      ((process_stream powf (init_bands st0) xs).2.band_ctrl i).max_gain = 10) ∧
    (∀ j : Fin 6,
      same_coeffs ((process_stream powf (init_bands st0) xs).2.bands j)
        ((init_bands st0).bands j)) := by
  have key := process_stream_invariant powf
    (fun st => (∀ i, (st.band_ctrl i).threshold = 0.1 ∧ (st.band_ctrl i).alpha = 0.995 ∧
        (st.band_ctrl i).max_gain = 10) ∧
      ∀ j, same_coeffs (st.bands j) ((init_bands st0).bands j))
    (fun st x h => by
      refine ⟨fun i => ?_, fun j => ?_⟩
      · obtain ⟨ha, ht, hm⟩ := process_sample_ctrl_fixed powf st x i
        exact ⟨ht.trans (h.1 i).1, ha.trans (h.1 i).2.1, hm.trans (h.1 i).2.2⟩
      · obtain ⟨c0, c1, c2, c3, c4⟩ := process_sample_same_coeffs powf st x j
        obtain ⟨d0, d1, d2, d3, d4⟩ := h.2 j
        exact ⟨c0.trans d0, c1.trans d1, c2.trans d2, c3.trans d3, c4.trans d4⟩)
    xs (init_bands st0)
    ⟨by intro i; rw [init_bands_ctrl]; norm_num, fun j => ⟨rfl, rfl, rfl, rfl, rfl⟩⟩
  refine ⟨fun i => ?_, key.2⟩
  obtain ⟨ht, ha, hm⟩ := key.1 i
  refine ⟨ht, ?_, ?_, ha, hm⟩
  · rw [ht]; norm_num
  · rw [ht]; norm_num

/-- C20 (DC behaviour).  For every constant `c`, a stage with the band-0
coefficients and all four delay registers equal to `c` maps the input `c` to
`c` and keeps its state; a stage with the band-1/band-2 coefficients and
`x1 = x2 = c`, `y1 = y2 = 0` maps the input `c` to `0` and keeps its state.
These are the coefficients `init_bands` gives stages 0-1 and 2-5. -/
theorem dc_behaviour (c : K) :
    biquad_process ⟨0.2929, 0.5858, 0.2929, 0, 0.1716, c, c, c, c⟩ c
        = (c, ⟨0.2929, 0.5858, 0.2929, 0, 0.1716, c, c, c, c⟩) ∧
    biquad_process ⟨0.2066, 0, -0.2066, 0, 0.5868, c, c, 0, 0⟩ c
        = (0, ⟨0.2066, 0, -0.2066, 0, 0.5868, c, c, 0, 0⟩) ∧
    (∀ (st0 : State K) (i : Fin 6),
      same_coeffs ((init_bands st0).bands i)
        (if i.val < 2 then ⟨0.2929, 0.5858, 0.2929, 0, 0.1716, c, c, c, c⟩
          else ⟨0.2066, 0, -0.2066, 0, 0.5868, c, c, 0, 0⟩)) := by
  refine ⟨?_, ?_, ?_⟩
  · simp only [biquad_process, Prod.mk.injEq, biquad_t.mk.injEq, and_true, true_and]
    constructor <;> ring
  · simp only [biquad_process, Prod.mk.injEq, biquad_t.mk.injEq, and_true, true_and]
    constructor <;> ring
  · intro st0 i
    by_cases h : i.val < 2
    · rw [init_bands_low st0 i h]; norm_num [h, same_coeffs, biquad_lit]
    · rw [init_bands_high st0 i (not_lt.mp h)]; norm_num [h, same_coeffs, biquad_lit]

/-- C12 (sample count 1:1).  A run of `process_sample` over `N` inputs returns
exactly `N` outputs, the `k`-th being what `process_sample` returns on the
`k`-th input in the state left by the first `k` calls; likewise the main loop
writes exactly one integer per input sample, the `k`-th being the conversion
of the `k`-th call's result.  This holds from any state, in particular from
the one built by `init_bands`, and for every `N`. -/
theorem sample_count (powf : K → K → K) [FloorRing K] (st : State K) (xs : List K)
    (ins : List Int) :
    (process_stream powf st xs).1.length = xs.length ∧
    (∀ k, (process_stream powf st xs).1[k]?
        = xs[k]?.map fun x =>
            (process_sample powf (process_stream powf st (xs.take k)).2 x).1) ∧
    (main_loop powf st ins).1.length = ins.length ∧
    (∀ k, (main_loop powf st ins).1[k]?
        = ins[k]?.map fun s : Int =>
            to_int16 ((process_sample powf (main_loop powf st (ins.take k)).2
              ((s : K) / 32768.0)).1 * 32767.0)) := by
  refine ⟨process_stream_length powf xs st, process_stream_getElem powf xs st, ?_, ?_⟩
  · rw [main_loop_eq]
    simp [process_stream_length]
  · intro k
    simp only [main_loop_state_take]
    rw [main_loop_eq]
    simp only [List.getElem?_map, process_stream_getElem, Option.map_map]
    rfl

/-- C18 (bands 1 and 2 are duplicates).  From the state built by
`init_bands`, after every finite input sequence the two stages and the
controller of band 1 equal those of band 2 (`bands[2] = bands[4]`,
`bands[3] = bands[5]`, `band_ctrl[1] = band_ctrl[2]`); on the next call their
post-gain samples are equal, and `process_sample` returns
`(s0 + 2*s1)/3` clipped to `[-1, 1]`. -/
theorem bands_duplicate (powf : K → K → K) (st0 : State K) (xs : List K) :
    let st := (process_stream powf (init_bands st0) xs).2
    st.bands 2 = st.bands 4 ∧ st.bands 3 = st.bands 5 ∧ st.band_ctrl 1 = st.band_ctrl 2 ∧
    ∀ x : K,
      (apply_band_agc powf (st.band_ctrl 1) (band_input st x 1)).1
        = (apply_band_agc powf (st.band_ctrl 2) (band_input st x 2)).1 ∧
      (process_sample powf st x).1
        = max (-1) (min (((apply_band_agc powf (st.band_ctrl 0) (band_input st x 0)).1
            + 2 * (apply_band_agc powf (st.band_ctrl 1) (band_input st x 1)).1) / 3) 1) := by
  intro st
  have key : st.bands 2 = st.bands 4 ∧ st.bands 3 = st.bands 5 ∧
      st.band_ctrl 1 = st.band_ctrl 2 :=
    process_stream_invariant powf
      (fun st => st.bands 2 = st.bands 4 ∧ st.bands 3 = st.bands 5 ∧
        st.band_ctrl 1 = st.band_ctrl 2)
      (fun st x h => process_sample_dup powf st x h) xs (init_bands st0) (init_bands_dup st0)
  refine ⟨key.1, key.2.1, key.2.2, ?_⟩
  intro x
  have hs : (apply_band_agc powf (st.band_ctrl 1) (band_input st x 1)).1
      = (apply_band_agc powf (st.band_ctrl 2) (band_input st x 2)).1 := by
    rw [band_input_dup st x key, key.2.2]
  refine ⟨hs, ?_⟩
  rw [process_sample_out, ← hs]
  congr 3
  ring

/-- C19 (odd symmetry).  From the state built by `init_bands`, running
`process_sample` over the negated input sequence returns the negated outputs
of the run over the original sequence, and leaves every stage with negated
delay registers (same coefficients) and every controller (envelope and gain
included) identical; as this holds for every sequence, it holds at every
step. -/
theorem odd_symmetry (powf : K → K → K) (st0 : State K) (xs : List K) :
    (process_stream powf (init_bands st0) (xs.map fun x => -x)).1
        = (process_stream powf (init_bands st0) xs).1.map (fun y => -y) ∧
    (∀ i, (process_stream powf (init_bands st0) (xs.map fun x => -x)).2.bands i
        = biquad_neg ((process_stream powf (init_bands st0) xs).2.bands i)) ∧
    (∀ b, (process_stream powf (init_bands st0) (xs.map fun x => -x)).2.band_ctrl b
        = (process_stream powf (init_bands st0) xs).2.band_ctrl b) := by
  have h := process_stream_neg powf xs (init_bands st0) (init_bands st0)
    ⟨fun i => biquad_neg_of_zero _ ((init_bands_silent st0).1 i), fun _ => rfl⟩
  exact ⟨h.1, h.2.1, h.2.2⟩

/-- C11 (cold start), over the reals with the real power function.  On the
state built by `init_bands` every envelope is `0`; for a first input `x` with
`|x| ≤ 1` each band's clamped target is the low clamp `0.03`, each band's gain
moves from its initial value `1` down to `0.99903` (toward `0.03`), and the
first output satisfies `|process_sample(x)| ≤ |x|`.  The input
`[0, 16384, -16384, 0]` gives exactly 4 written integers, each in
`[-32767, 32767]`, the first being `0`. -/
theorem cold_start (st0 : State ℝ) (x : ℝ) (hx : |x| ≤ 1) :
    (∀ b, ((init_bands st0).band_ctrl b).env = 0) ∧
    (∀ b, agc_clamped Real.rpow ((init_bands st0).band_ctrl b)
        (band_input (init_bands st0) x b) = 0.03) ∧
    (∀ b, ((process_sample Real.rpow (init_bands st0) x).2.band_ctrl b).gain = 0.99903 ∧
      0.03 ≤ ((process_sample Real.rpow (init_bands st0) x).2.band_ctrl b).gain ∧
      ((process_sample Real.rpow (init_bands st0) x).2.band_ctrl b).gain
        < ((init_bands st0).band_ctrl b).gain) ∧
    |(process_sample Real.rpow (init_bands st0) x).1| ≤ |x| ∧
    ((main_loop Real.rpow (init_bands st0) [0, 16384, -16384, 0]).1.length = 4 ∧
      (∀ o ∈ (main_loop Real.rpow (init_bands st0) [0, 16384, -16384, 0]).1,
        -32767 ≤ o ∧ o ≤ 32767) ∧
      (main_loop Real.rpow (init_bands st0) [0, 16384, -16384, 0]).1.head? = some 0) := by
  refine ⟨(init_bands_silent st0).2, fun b => agc_clamped_quiet _ _ (first_call_agc st0 x hx b),
    ?_, ?_, main_loop_length _ _ _, main_loop_range _ _ _, main_loop_head_zero _ _ _⟩
  · intro b
    have hg : ((process_sample Real.rpow (init_bands st0) x).2.band_ctrl b).gain = 0.99903 := by
      rw [process_sample_ctrl, apply_band_agc_eq]
      exact first_call_gain st0 x hx b
    rw [hg, init_bands_ctrl]
    norm_num
  · rw [first_call_out st0 x hx, abs_mul]
    have h := abs_nonneg x
    have hc : |((0.2929 : ℝ) * 0.2929 + 2 * (0.2066 * 0.2066)) * 0.99903 / 3| ≤ 1 := by
      rw [abs_of_nonneg (by norm_num)]
      norm_num
    nlinarith

/-- Witness for C11: the first input `0.5`. -/
theorem cold_start_witness :
    |(0.5 : ℝ)| ≤ 1 ∧
    |(process_sample Real.rpow (init_bands zero_state) 0.5).1| ≤ |(0.5 : ℝ)| :=
  ⟨by rw [abs_of_nonneg (by norm_num)]; norm_num,
   (cold_start zero_state 0.5 (by rw [abs_of_nonneg (by norm_num)]; norm_num)).2.2.2.1⟩

/-- Counterexample to C15 as stated: a controller with the constants of
`init_bands` and envelope `0.759375`, fed the sample `0.759375`.  The updated
envelope is `0.759375`, `ratio = 7.59375 = 1.5^5 ≥ 1`, and the target before
the clamps is `1 + 9 * 1.5^3 = 31.375`, which exceeds `max_gain = 10`. -/
theorem expansion_curve_counterexample :
    agc_ratio (⟨0.995, 0.759375, 0.1, 10, 1⟩ : band_agc_t ℝ) 0.759375 = 7.59375 ∧
    (1 : ℝ) ≤ 7.59375 ∧
    agc_target Real.rpow ⟨0.995, 0.759375, 0.1, 10, 1⟩ 0.759375 = 31.375 ∧
    ¬ (agc_target Real.rpow ⟨0.995, 0.759375, 0.1, 10, 1⟩ 0.759375
        ≤ (⟨0.995, 0.759375, 0.1, 10, 1⟩ : band_agc_t ℝ).max_gain) := by
  have habs : |(0.759375 : ℝ)| = 0.759375 := abs_of_nonneg (by norm_num)
  have hr : agc_ratio (⟨0.995, 0.759375, 0.1, 10, 1⟩ : band_agc_t ℝ) 0.759375 = 7.59375 := by
    simp only [agc_ratio, agc_env, habs]; norm_num
  have ht : agc_target Real.rpow ⟨0.995, 0.759375, 0.1, 10, 1⟩ 0.759375 = 31.375 := by
    rw [agc_target_eq, hr, target_loud _ _ (by norm_num), rpow_example]
    norm_num
  refine ⟨hr, by norm_num, ht, ?_⟩
  rw [ht]
  norm_num

/-- C15 (expansion curve, amended), over the reals with the real power
function and `max_gain = 10`.  For every `ratio ≥ 1` the target before the
clamps, `1 + 9 * ratio^0.6`, is at least `max_gain` (strictly above it when
`ratio > 1`), grows sub-linearly (it is at most `1 + 9 * ratio`) and tends to
infinity as `ratio` does; the target gain stays bounded only through the
clamp, after which it equals `max_gain`.  This is the target `apply_band_agc`
computes for any controller with `max_gain = 10` at that ratio. -/
theorem expansion_curve (ratio : ℝ) (h : 1 ≤ ratio) :
    10 ≤ target_of_ratio Real.rpow 10 ratio ∧
    (1 < ratio → 10 < target_of_ratio Real.rpow 10 ratio) ∧
    target_of_ratio Real.rpow 10 ratio ≤ 1 + 9 * ratio ∧
    clamp_target 10 (target_of_ratio Real.rpow 10 ratio) = 10 ∧
    Filter.Tendsto (fun r : ℝ => target_of_ratio Real.rpow 10 r) Filter.atTop Filter.atTop ∧
    (∀ (b : band_agc_t ℝ) (s : ℝ), b.max_gain = 10 → agc_ratio b s = ratio →
      agc_target Real.rpow b s = target_of_ratio Real.rpow 10 ratio ∧
      agc_clamped Real.rpow b s = 10) := by
  refine ⟨target_loud_ge 10 ratio h (by norm_num),
    fun h1 => target_loud_gt 10 ratio h1 (by norm_num), ?_,
    clamp_target_loud 10 ratio h (by norm_num), target_loud_tendsto, ?_⟩
  · have := target_loud_le_linear 10 ratio h (by norm_num)
    linarith
  · intro b s hm hr
    rw [agc_target_eq, agc_clamped_eq_clamp, hm, hr]
    exact ⟨rfl, clamp_target_loud 10 ratio h (by norm_num)⟩

/-- Witness for C15: `ratio = 7.59375`. -/
theorem expansion_curve_witness :
    (1 : ℝ) ≤ 7.59375 ∧ 10 < target_of_ratio Real.rpow 10 7.59375 :=
  ⟨by norm_num, (expansion_curve 7.59375 (by norm_num)).2.1 (by norm_num)⟩

/-- C17 (loud branch saturates), over the reals with the real power function.
For every controller with `max_gain ≥ 1` and `threshold > 0`: whenever the
updated envelope gives `ratio ≥ 1` the clamped target equals `max_gain`
exactly; whenever it gives `ratio < 1`, for a controller whose envelope is
non-negative (`0 ≤ alpha ≤ 1`, `env ≥ 0`, as in every state the program
holds), the clamped target is `max(ratio^4, 0.03)`.  As a function of
`ratio ≥ 0` the clamped target is thus `max(ratio^4, 0.03) < 1` below 1 and
`max_gain` from `ratio = 1` on.  In every state reached from `init_bands`, for
every band and every sample, the clamped target is `10` when `ratio ≥ 1` and
`max(ratio^4, 0.03)` when `ratio < 1`. -/
theorem loud_branch_saturates (b : band_agc_t ℝ) (s : ℝ)
    (hmax : 1 ≤ b.max_gain) (hthr : 0 < b.threshold) :
    (1 ≤ agc_ratio b s → agc_clamped Real.rpow b s = b.max_gain) ∧
    (0 ≤ b.alpha → b.alpha ≤ 1 → 0 ≤ b.env → agc_ratio b s < 1 →
      agc_clamped Real.rpow b s = max (agc_ratio b s ^ 4) 0.03) ∧
    (∀ ratio : ℝ, 1 ≤ ratio →
      clamp_target b.max_gain (target_of_ratio Real.rpow b.max_gain ratio) = b.max_gain) ∧
    (∀ ratio : ℝ, 0 ≤ ratio → ratio < 1 →
      clamp_target b.max_gain (target_of_ratio Real.rpow b.max_gain ratio)
          = max (ratio ^ 4) 0.03 ∧
        clamp_target b.max_gain (target_of_ratio Real.rpow b.max_gain ratio) < 1) ∧
    (∀ (st0 : State ℝ) (xs : List ℝ) (i : Fin 3) (y : ℝ),
      (1 ≤ agc_ratio ((process_stream Real.rpow (init_bands st0) xs).2.band_ctrl i) y →
        agc_clamped Real.rpow ((process_stream Real.rpow (init_bands st0) xs).2.band_ctrl i) y
          = 10) ∧
      (agc_ratio ((process_stream Real.rpow (init_bands st0) xs).2.band_ctrl i) y < 1 →
        agc_clamped Real.rpow ((process_stream Real.rpow (init_bands st0) xs).2.band_ctrl i) y
          = max (agc_ratio ((process_stream Real.rpow (init_bands st0) xs).2.band_ctrl i) y ^ 4)
              0.03)) := by
  refine ⟨fun h => agc_clamped_loud b s h hmax, ?_,
    fun ratio h => clamp_target_loud _ ratio h hmax, ?_, ?_⟩
  · intro h0 h1 he hr
    exact agc_clamped_below b s hmax (agc_ratio_nonneg b s h0 h1 he hthr) hr
  · intro ratio h0 h1
    have hq := clamp_target_quiet b.max_gain ratio hmax (le_trans (by norm_num) h0) h1
    refine ⟨hq, ?_⟩
    rw [hq]
    have h2 : ratio ^ 2 < 1 := by nlinarith
    have h4 : ratio ^ 4 < 1 := by nlinarith [sq_nonneg ratio]
    exact max_lt h4 (by norm_num)
  · intro st0 xs i y
    obtain ⟨ha, ht, hm, he⟩ := reachable_ctrl Real.rpow st0 xs i
    have hmax' : 1 ≤ ((process_stream Real.rpow (init_bands st0) xs).2.band_ctrl i).max_gain := by
      rw [hm]; norm_num
    constructor
    · intro h
      rw [agc_clamped_loud _ y h hmax', hm]
    · intro h
      exact agc_clamped_below _ y hmax'
        (agc_ratio_nonneg _ y (by rw [ha]; norm_num) (by rw [ha]; norm_num) he
          (by rw [ht]; norm_num)) h

/-- Witness for C17: a loud call (`ratio = 2`) with `max_gain = 10`. -/
theorem loud_branch_saturates_witness :
    ((1 : ℝ) ≤ 10 ∧ (0 : ℝ) < 0.1 ∧
      1 ≤ agc_ratio (⟨0.995, 0.2, 0.1, 10, 1⟩ : band_agc_t ℝ) 0.2) ∧
    agc_clamped Real.rpow ⟨0.995, 0.2, 0.1, 10, 1⟩ 0.2
      = (⟨0.995, 0.2, 0.1, 10, 1⟩ : band_agc_t ℝ).max_gain := by
  have habs : |(0.2 : ℝ)| = 0.2 := abs_of_nonneg (by norm_num)
  have hr : 1 ≤ agc_ratio (⟨0.995, 0.2, 0.1, 10, 1⟩ : band_agc_t ℝ) 0.2 := by
    simp only [agc_ratio, agc_env, habs]; norm_num
  exact ⟨⟨by norm_num, by norm_num, hr⟩,
    (loud_branch_saturates ⟨0.995, 0.2, 0.1, 10, 1⟩ 0.2 (by norm_num) (by norm_num)).1 hr⟩

end Claims

end BandPassFilterVAD
